import Mathlib

/-!
Shallow embedding of the trust-and-topology core of `sn_messaging`
(`src/node/section/section_proof_chain.rs`, `src/node/section/section_peers.rs`,
`src/node/section/mod.rs`, `src/node/network.rs`) together with theorems that
settle the specification claims about it.

Modelling conventions:
* `threshold_crypto::PublicKey` is modelled as `Nat`; `Signature` as `Nat × Nat`.
* BLS verification is kept abstract: every chain operation that verifies a
  signature takes a verifier parameter `V : PublicKey → Signature → PublicKey → Bool`
  (`V pk sig msg` models `pk.verify(&sig, &bincode::serialize(&msg))`; the bincode
  serialization of a public key is total and injective, so the serialized bytes are
  identified with the key itself).  `blsVerify` is a concrete idealized instance
  used by witnesses and counterexamples.
* Mutating Rust methods are modelled as functions returning the new value,
  paired with the method's return value where it has one.
-/

namespace SnMessaging

abbrev PublicKey := Nat

abbrev Signature := Nat × Nat

/-- Abstract verifier: `V pk sig msg` models `pk.verify(&sig, &serialize(&msg))`
for a message that is itself a public key. -/
abbrev KeyVerifier := PublicKey → Signature → PublicKey → Bool

/-- Concrete idealized signature scheme used by witnesses: the signature by `pk`
over `msg` is exactly the pair `(pk, msg)`. -/
def blsVerify : KeyVerifier := fun pk sig msg => decide (sig = (pk, msg))

/-- Idealized signing function matching `blsVerify`. -/
def blsSign (pk msg : Nat) : Signature := (pk, msg)

/-- Block of the section proof chain (`Block` in `section_proof_chain.rs`):
the section BLS public key, signed by the previous block's key. -/
structure Block where
  key : PublicKey
  signature : Signature
deriving DecidableEq

/-- `Block::verify`: check the block's signature over its serialized key against
the given (predecessor) public key. -/
def Block.verify (V : KeyVerifier) (b : Block) (public_key : PublicKey) : Bool :=
  V public_key b.signature b.key

/-- Chain of section BLS keys where every key is proven (signed) by the previous
key, except the first one (`SectionProofChain`). -/
structure SectionProofChain where
  head : PublicKey
  tail : List Block
deriving DecidableEq

namespace SectionProofChain

/-- `SectionProofChain::new`: chain consisting of only one block. -/
def new (first : PublicKey) : SectionProofChain := ⟨first, []⟩

/-- `SectionProofChain::first_key`. -/
def first_key (c : SectionProofChain) : PublicKey := c.head

/-- `SectionProofChain::last_key`. -/
def last_key (c : SectionProofChain) : PublicKey :=
  (c.tail.getLast?.map Block.key).getD c.head

/-- `SectionProofChain::keys` (as a list, head first). -/
def keys (c : SectionProofChain) : List PublicKey :=
  c.head :: c.tail.map Block.key

/-- `SectionProofChain::has_key`. -/
def has_key (c : SectionProofChain) (key : PublicKey) : Bool :=
  c.keys.any (fun existing_key => existing_key == key)

/-- `SectionProofChain::index_of`: index of the key in the chain, if present. -/
def index_of (c : SectionProofChain) (key : PublicKey) : Option Nat :=
  c.keys.findIdx? (fun existing_key => existing_key == key)

/-- `SectionProofChain::push`: pushes a new key into the chain but only if the
signature is valid; returns the new chain and whether the chain changed. -/
def push (V : KeyVerifier) (c : SectionProofChain) (key : PublicKey)
    (signature : Signature) : SectionProofChain × Bool :=
  if c.has_key key then (c, false)
  else if V c.last_key signature key then
    (⟨c.head, c.tail ++ [⟨key, signature⟩]⟩, true)
  else (c, false)

/-- `SectionProofChain::len`: number of blocks including the first one. -/
def len (c : SectionProofChain) : Nat := 1 + c.tail.length

/-- `SectionProofChain::last_key_index`. -/
def last_key_index (c : SectionProofChain) : Nat := c.tail.length

/-- One bound of a `RangeBounds<u64>` argument. -/
inductive RangeBound where
  | inc : Nat → RangeBound
  | exc : Nat → RangeBound
  | unb : RangeBound
deriving DecidableEq

/-- An index range handed to `slice` (models `RangeBounds<u64>`). -/
structure IdxRange where
  lo : RangeBound
  hi : RangeBound
deriving DecidableEq

/-- Resolved start index of a range (`match range.start_bound()`), at the
mathematical value of the source's arithmetic, i.e. assuming the
`*index as usize + 1` of the `Excluded` case does not overflow.  The
overflow-explicit version is `startIdxChecked`; the two agree whenever the
checked one returns a value. -/
def RangeBound.startIdx : RangeBound → Nat
  | .inc i => i
  | .exc i => i + 1
  | .unb => 0

/-- Resolved end index of a range (`match range.end_bound()`), given
`tail.len()`, at the mathematical value of the source's arithmetic, i.e.
assuming the `*index as usize + 1` of the `Included` case does not overflow.
The overflow-explicit version is `endIdxChecked`. -/
def RangeBound.endIdx (tailLen : Nat) : RangeBound → Nat
  | .inc i => i + 1
  | .exc i => i
  | .unb => tailLen + 1

/-- Resolved start index with the source's u64-to-usize arithmetic made
explicit (64-bit target, debug-assertions semantics): the `Excluded` case
computes `*index as usize + 1`, which overflows — `none`, an arithmetic
overflow panic — when the index is `u64::MAX`. -/
def RangeBound.startIdxChecked : RangeBound → Option Nat
  | .inc i => some i
  | .exc i => if i + 1 < 2 ^ 64 then some (i + 1) else none
  | .unb => some 0

/-- Resolved end index with the source's u64-to-usize arithmetic made
explicit: the `Included` case computes `*index as usize + 1`, overflowing at
`u64::MAX`.  (`tail.len() + 1` of the `Unbounded` case cannot overflow, a
`Vec` length being at most `isize::MAX`.) -/
def RangeBound.endIdxChecked (tailLen : Nat) : RangeBound → Option Nat
  | .inc i => if i + 1 < 2 ^ 64 then some (i + 1) else none
  | .exc i => some i
  | .unb => some (tailLen + 1)

/-- Clamped start index used by `slice`. -/
def sliceStart (c : SectionProofChain) (r : IdxRange) : Nat :=
  min r.lo.startIdx c.tail.length

/-- Clamped end index used by `slice`. -/
def sliceEnd (c : SectionProofChain) (r : IdxRange) : Nat :=
  max (min (r.hi.endIdx c.tail.length) (c.tail.length + 1)) (sliceStart c r + 1)

/-- `SectionProofChain::slice`: subset of this chain specified by the given
index range; invalid or out-of-bounds ranges are silently adjusted. -/
def slice (c : SectionProofChain) (r : IdxRange) : SectionProofChain :=
  if sliceStart c r = 0 then ⟨c.head, c.tail.take (sliceEnd c r - 1)⟩
  else
    ⟨((c.tail.get? (sliceStart c r - 1)).map Block.key).getD c.head,
      (c.tail.drop (sliceStart c r)).take (sliceEnd c r - 1 - sliceStart c r)⟩

/-- Model of Rust sub-slicing `l[a..b]`, which panics (here: `none`) unless
`a <= b <= l.length`. -/
def listSub (l : List Block) (a b : Nat) : Option (List Block) :=
  if a ≤ b ∧ b ≤ l.length then some ((l.drop a).take (b - a)) else none

/-- Panic-explicit version of the clamping-and-indexing stage of `slice`:
every indexing operation of the Rust code (`self.tail[start - 1]`,
`self.tail[0..end - 1]`, `self.tail[start..end - 1]`) is performed through a
partial accessor, so `none` marks a would-be panic.  The bound arithmetic is
taken at its mathematical value here; `sliceDebug` makes its overflow
explicit as well. -/
def sliceChecked (c : SectionProofChain) (r : IdxRange) : Option SectionProofChain :=
  if sliceStart c r = 0 then
    (listSub c.tail 0 (sliceEnd c r - 1)).map (fun t => ⟨c.head, t⟩)
  else
    match c.tail.get? (sliceStart c r - 1),
        listSub c.tail (sliceStart c r) (sliceEnd c r - 1) with
    | some b, some t => some ⟨b.key, t⟩
    | _, _ => none

/-- Fully panic-explicit `slice` (64-bit target, debug-assertions semantics):
first the range bounds are resolved with `startIdxChecked` / `endIdxChecked`,
where `none` marks the arithmetic overflow panic of `*index as usize + 1`;
only then are the indices clamped and the tail accessed, with `none` marking
any out-of-bounds access. -/
def sliceDebug (c : SectionProofChain) (r : IdxRange) : Option SectionProofChain :=
  match RangeBound.startIdxChecked r.lo, RangeBound.endIdxChecked c.tail.length r.hi with
  | some _, some _ => sliceChecked c r
  | _, _ => none

/-- Closed-range helper: the range `a..=b`. -/
def rangeII (a b : Nat) : IdxRange := ⟨.inc a, .inc b⟩

/-- Tail-open helper: the range `a..`. -/
def rangeFrom (a : Nat) : IdxRange := ⟨.inc a, .unb⟩

/-- The verification loop shared by `self_verify` and `check_trust`: checks the
blocks in order, each against the key of its predecessor, starting from `cur`. -/
def verifyBlocks (V : KeyVerifier) : PublicKey → List Block → Bool
  | _, [] => true
  | cur, b :: rest => b.verify V cur && verifyBlocks V b.key rest

/-- `SectionProofChain::self_verify`: all blocks except the first have valid
signatures. -/
def self_verify (V : KeyVerifier) (c : SectionProofChain) : Bool :=
  verifyBlocks V c.head c.tail

/-- Result of a message trust check (`TrustStatus`). -/
inductive TrustStatus where
  | Trusted
  | Invalid
  | Unknown
deriving DecidableEq

/-- `SectionProofChain::latest_trusted_key`: the latest key in this chain that
is among the trusted keys, together with its index. -/
def latest_trusted_key (c : SectionProofChain) (trusted_keys : List PublicKey) :
    Option (Nat × PublicKey) :=
  (c.keys.enum.reverse).find? (fun ik => trusted_keys.contains ik.2)

/-- `SectionProofChain::check_trust`: verify this proof chain against the given
trusted keys. -/
def check_trust (V : KeyVerifier) (c : SectionProofChain)
    (trusted_keys : List PublicKey) : TrustStatus :=
  match c.latest_trusted_key trusted_keys with
  | some (index, trusted_key) =>
      if verifyBlocks V trusted_key (c.tail.drop index) then .Trusted else .Invalid
  | none => if c.self_verify V then .Unknown else .Invalid

/-- Error returned from `SectionProofChain::extend`. -/
inductive ExtendError where
  | InvalidFirstKey
  | InvalidLastKey
  | AlreadySufficient
deriving DecidableEq

/-- `SectionProofChain::extend`: extend `self` so it starts at `new_first_key`
while keeping the last key intact. -/
def extend (c : SectionProofChain) (new_first_key : PublicKey)
    (full_chain : SectionProofChain) : Except ExtendError SectionProofChain :=
  if c.has_key new_first_key then .error .AlreadySufficient
  else
    match full_chain.index_of new_first_key with
    | none => .error .InvalidFirstKey
    | some index_from =>
      match full_chain.index_of c.last_key with
      | none => .error .InvalidLastKey
      | some index_to =>
        if index_to < index_from then .error .InvalidFirstKey
        else .ok (full_chain.slice (rangeII index_from index_to))

/-- Error returned from `SectionProofChain::merge`. -/
inductive MergeError where
  | mk
deriving DecidableEq

/-- The inner `check_same_keys` of `merge`: zips the two key iterators
(truncating to the shorter one) and demands pairwise equality. -/
def check_same_keys (a b : List PublicKey) : Bool :=
  (a.zip b).all (fun p => p.1 == p.2)

/-- `SectionProofChain::merge`: reconcile two chains that overlap on a
contiguous run of keys. -/
def merge (c other : SectionProofChain) : Except MergeError SectionProofChain :=
  match c.index_of other.first_key with
  | some first =>
      if check_same_keys (c.keys.drop (first + 1)) (other.keys.drop 1) then
        if c.has_key other.last_key then .ok c
        else .ok ⟨c.head, c.tail.take first ++ other.tail⟩
      else .error .mk
  | none =>
    match other.index_of c.first_key with
    | some first =>
        if check_same_keys (c.keys.drop 1) (other.keys.drop (first + 1)) then
          if other.has_key c.last_key then .ok ⟨other.head, other.tail⟩
          else .ok ⟨other.head, other.tail.take first ++ c.tail⟩
        else .error .mk
    | none => .error .mk

end SectionProofChain

/-!
Model of `xor_name::Prefix` (external crate): a variable-length bit-prefix,
most significant bit first, and of `XorName`, a full address (also a bit list).
-/

/-- Bit-prefix of the address space (`xor_name::Prefix`; the Rust identifier
is a Lean keyword, hence the abbreviated name). -/
abbrev Pfx := List Bool

/-- Full address (`xor_name::XorName`), as a bit list. -/
abbrev XorName := List Bool

/-- `Prefix::bit_count`. -/
def Pfx.bit_count (p : Pfx) : Nat := p.length

/-- `Prefix::popped`: drop the last bit (identity on the empty prefix). -/
def Pfx.popped (p : Pfx) : Pfx := p.dropLast

/-- `Prefix::pushed`: append one bit. -/
def Pfx.pushed (p : Pfx) (b : Bool) : Pfx := p ++ [b]

/-- `Prefix::is_compatible`: one of the two is a prefix of the other. -/
def Pfx.is_compatible (p q : Pfx) : Bool := p.isPrefixOf q || q.isPrefixOf p

/-- `Prefix::is_extension_of`: `q` is compatible with `p` and strictly shorter. -/
def Pfx.is_extension_of (p q : Pfx) : Bool :=
  q.isPrefixOf p && decide (q.length < p.length)

/-- `Prefix::matches`: the name falls within this bit-prefix. -/
def Pfx.matches (p : Pfx) (name : XorName) : Bool := p.isPrefixOf name

/-- Largest bit count among a list of prefixes (the `max_prefix_len` of
`Prefix::is_covered_by`). -/
def maxLenS (S : List Pfx) : Nat := S.foldr (fun x acc => max x.length acc) 0

/-- The recursive worker of `Prefix::is_covered_by`.  The fuel argument equals
`max_prefix_len - p.bit_count()`: the Rust code recurses on the two one-bit
extensions of `p` exactly while `p.bit_count() < max_prefix_len`. -/
def coveredImpl (S : List Pfx) : Nat → Pfx → Bool
  | 0, p => S.any (fun x => x.isPrefixOf p)
  | fuel + 1, p =>
      S.any (fun x => x.isPrefixOf p) ||
        (coveredImpl S fuel (p ++ [false]) && coveredImpl S fuel (p ++ [true]))

/-- `Prefix::is_covered_by`: the given prefixes jointly cover the whole address
space under `p`. -/
def Pfx.is_covered_by (p : Pfx) (S : List Pfx) : Bool :=
  coveredImpl S (maxLenS S - p.length) p

/-!
`PrefixMap<T>` from `src/node/network.rs`: a set of entries, each exposing a
prefix, with automatic pruning of entries fully covered by their descendants.
The `BTreeSet` is modelled as a list with at most one entry per prefix; the
ordering of the underlying set is irrelevant to every claim.
-/

/-- `PrefixMap<T>`. -/
structure PrefixMap (T : Type) where
  entries : List T
deriving DecidableEq

namespace PrefixMap

variable {T : Type}

/-- `PrefixMap::descendants`: all entries whose prefix strictly extends `p`. -/
def descendants (pfx : T → Pfx) (m : PrefixMap T) (p : Pfx) : List T :=
  m.entries.filter (fun e => Pfx.is_extension_of (pfx e) p)

/-- Prefixes of the entries strictly extending `p`. -/
def descPrefixes (pfx : T → Pfx) (m : PrefixMap T) (p : Pfx) : List Pfx :=
  (m.descendants pfx p).map pfx

/-- Remove the entry at prefix `p` (the removal half of `BTreeSet::remove` /
`BTreeSet::take` keyed by prefix). -/
def removeAt (pfx : T → Pfx) (m : PrefixMap T) (p : Pfx) : PrefixMap T :=
  ⟨m.entries.filter (fun e => decide (pfx e ≠ p))⟩

/-- The `prune` loop of `PrefixMap`, walking the given prefix and then each of
its ancestors down to the empty prefix, removing any that is covered by its
descendants.  The prefix is carried reversed so that `popped` is structural. -/
def pruneRev (pfx : T → Pfx) : PrefixMap T → List Bool → PrefixMap T
  | m, [] =>
      if Pfx.is_covered_by [] (m.descPrefixes pfx []) then m.removeAt pfx [] else m
  | m, b :: r =>
      pruneRev pfx
        (if Pfx.is_covered_by ((b :: r).reverse)
            (m.descPrefixes pfx ((b :: r).reverse)) then
          m.removeAt pfx ((b :: r).reverse)
        else m) r

/-- `PrefixMap::prune`: remove `p` and any of its ancestors if they are covered
by their descendants. -/
def prune (pfx : T → Pfx) (m : PrefixMap T) (p : Pfx) : PrefixMap T :=
  pruneRev pfx m p.reverse

/-- `PrefixMap::insert`: no-op if a descendant of the entry's prefix is already
present; otherwise replace any entry at the same prefix (returning the old one)
and prune the ancestors, starting from the parent prefix. -/
def insert (pfx : T → Pfx) (m : PrefixMap T) (e : T) : PrefixMap T × Option T :=
  if (m.descendants pfx (pfx e)).isEmpty then
    let old := m.entries.find? (fun x => decide (pfx x = pfx e))
    let m1 : PrefixMap T := ⟨e :: m.entries.filter (fun x => decide (pfx x ≠ pfx e))⟩
    (m1.prune pfx (Pfx.popped (pfx e)), old)
  else (m, some e)

/-- `PrefixMap::remove`: remove and return the entry at `p`, if any. -/
def remove (pfx : T → Pfx) (m : PrefixMap T) (p : Pfx) : PrefixMap T × Option T :=
  (m.removeAt pfx p, m.entries.find? (fun x => decide (pfx x = p)))

/-- The stored prefix `q` is not fully covered by the prefixes of the stored
entries that strictly extend it. -/
def OKat (pfx : T → Pfx) (m : PrefixMap T) (q : Pfx) : Prop :=
  ¬ Pfx.is_covered_by q (m.descPrefixes pfx q) = true

/-- The `PrefixMap` redundancy invariant: no stored prefix is entirely covered
by the prefixes of the other stored entries that are its strict extensions. -/
def Inv (pfx : T → Pfx) (m : PrefixMap T) : Prop :=
  ∀ e ∈ m.entries, m.OKat pfx (pfx e)

/-- Maps reachable from the empty map by `insert` and `remove` operations. -/
inductive Reachable (pfx : T → Pfx) : PrefixMap T → Prop where
  | empty : Reachable pfx ⟨[]⟩
  | ins (m : PrefixMap T) (e : T) : Reachable pfx m → Reachable pfx (m.insert pfx e).1
  | rem (m : PrefixMap T) (p : Pfx) : Reachable pfx m → Reachable pfx (m.remove pfx p).1

end PrefixMap

/-!
The membership / section layer.  The files `member_info.rs`, `elders_info.rs`,
`peer.rs` and `consensus/proven.rs` of this repository are not available, so
the data shapes below are modelled from the spec (sections 2 and 3); the
operations on them (`SectionPeers::update`, `SectionPeers::prune_not_matching`,
`Section::update_elders`, `Section::trimmed`) are translated from
`section_peers.rs` and `section/mod.rs`, which are available.
-/

/-- Modelled from the spec: the `(public_key, signature)` proof part of
`Proven<T>` (missing `consensus/proven.rs`). -/
structure Proof where
  public_key : PublicKey
  signature : Signature
deriving DecidableEq

/-- Modelled from the spec: `Proven<T>`, "a value plus a signature over it"
(missing `consensus/proven.rs`). -/
structure Proven (T : Type) where
  value : T
  proof : Proof
deriving DecidableEq

/-- Modelled from the spec: `Proven::self_verify` checks the bundled signature
over the serialized value under the bundled public key; `Vt` is the abstract
verifier for values of type `T` (missing `consensus/proven.rs`). -/
def Proven.self_verify {T : Type} (Vt : PublicKey → Signature → T → Bool)
    (p : Proven T) : Bool :=
  Vt p.proof.public_key p.proof.signature p.value

/-- Modelled from the spec: `EldersInfo` holds the section prefix, the elder
set and a version (missing `elders_info.rs`).  The `prefix` field is named
`pfx` because `prefix` is a Lean keyword. -/
structure EldersInfo where
  pfx : Pfx
  elders : List XorName
  version : Nat
deriving DecidableEq

/-- Abstract verifier for signatures over serialized `EldersInfo` values. -/
abbrev EldersVerifier := PublicKey → Signature → EldersInfo → Bool

/-- Modelled from the spec: `Peer`, a peer identity with its name and age
(missing `peer.rs`). -/
structure Peer where
  name : XorName
  age : Nat
deriving DecidableEq

/-- Modelled from the spec: `PeerState`, the lifecycle state of a member
(missing `member_info.rs`). -/
inductive PeerState where
  | Joined
  | Left
  | Relocated : XorName → PeerState
deriving DecidableEq

/-- Modelled from the spec: `MemberInfo`, one member's peer identity and
lifecycle state (missing `member_info.rs`). -/
structure MemberInfo where
  peer : Peer
  state : PeerState
deriving DecidableEq

/-- `SectionPeers` (`section_peers.rs`): the `BTreeMap<XorName, Proven<MemberInfo>>`
is modelled as an association list with at most one entry per name; the map
ordering is irrelevant to every claim. -/
structure SectionPeers where
  members : List (XorName × Proven MemberInfo)
deriving DecidableEq

namespace SectionPeers

/-- Replace the value stored under `n`, keeping every other entry in place
(the `entry.insert` of the occupied branch of `update`). -/
def replaceEntry (l : List (XorName × Proven MemberInfo)) (n : XorName)
    (v : Proven MemberInfo) : List (XorName × Proven MemberInfo) :=
  l.map (fun kv => if kv.1 = n then (n, v) else kv)

/-- `SectionPeers::update`: insert if vacant; otherwise allow only the
transitions Joined→Joined with greater age, Joined→Left, Joined→Relocated and
Relocated→Left.  Returns the new container and whether anything changed. -/
def update (s : SectionPeers) (new_info : Proven MemberInfo) : SectionPeers × Bool :=
  let name := new_info.value.peer.name
  match s.members.lookup name with
  | none => (⟨s.members ++ [(name, new_info)]⟩, true)
  | some old =>
    let ok : Bool :=
      match old.value.state, new_info.value.state with
      | .Joined, .Joined => decide (old.value.peer.age < new_info.value.peer.age)
      | .Joined, .Left => true
      | .Joined, .Relocated _ => true
      | .Relocated _, .Left => true
      | _, _ => false
    if ok then (⟨replaceEntry s.members name new_info⟩, true) else (s, false)

/-- `SectionPeers::prune_not_matching`: remove all members whose name does not
match the prefix. -/
def prune_not_matching (s : SectionPeers) (p : Pfx) : SectionPeers :=
  ⟨s.members.filter (fun kv => Pfx.matches p kv.1)⟩

/-- The transition table of the commutativity comment in `SectionPeers::update`:
Joined→Joined with strictly greater age, Joined→Left, Joined→Relocated, and
Relocated→Left are the only allowed replacements of an existing record. -/
def allowedTransition (old new_info : Proven MemberInfo) : Bool :=
  match old.value.state, new_info.value.state with
  | .Joined, .Joined => decide (old.value.peer.age < new_info.value.peer.age)
  | .Joined, .Left => true
  | .Joined, .Relocated _ => true
  | .Relocated _, .Left => true
  | _, _ => false

end SectionPeers

/-- `Section` (`section/mod.rs`): members, proven elders info and proof chain. -/
structure Section where
  members : SectionPeers
  elders_info : Proven EldersInfo
  chain : SectionProofChain
deriving DecidableEq

namespace Section

/-- `Section::update_elders`: requires the new elders info to self-verify and
the chain push of its key to succeed; then replaces the elders info and prunes
members not matching the (new) prefix. -/
def update_elders (V : KeyVerifier) (VE : EldersVerifier) (s : Section)
    (new_elders_info : Proven EldersInfo) (new_key_proof : Proof) : Section × Bool :=
  if new_elders_info.self_verify VE then
    if (s.chain.push V new_elders_info.proof.public_key new_key_proof.signature).2 then
      ({ members := s.members.prune_not_matching new_elders_info.value.pfx,
         elders_info := new_elders_info,
         chain := (s.chain.push V new_elders_info.proof.public_key
           new_key_proof.signature).1 }, true)
    else
      ({ s with chain := (s.chain.push V new_elders_info.proof.public_key
          new_key_proof.signature).1 }, false)
  else (s, false)

/-- `Section::trimmed`: only the elders info plus the chain truncated from the
end to at most `chain_len` blocks (zero is silently treated as one). -/
def trimmed (s : Section) (chain_len : Nat) : Section :=
  let first_key_index := s.chain.last_key_index - (chain_len - 1)
  { elders_info := s.elders_info,
    chain := s.chain.slice (SectionProofChain.rangeFrom first_key_index),
    members := ⟨[]⟩ }

end Section

/-!
Lemmas about `SectionProofChain` basics and `slice`.
-/

namespace SectionProofChain

theorem keys_length (c : SectionProofChain) : c.keys.length = 1 + c.tail.length := by
  simp [keys, Nat.add_comm]

theorem len_eq_keys_length (c : SectionProofChain) : c.len = c.keys.length := by
  simp [len, keys, Nat.add_comm]

theorem sliceStart_le_tail (c : SectionProofChain) (r : IdxRange) :
    sliceStart c r ≤ c.tail.length :=
  Nat.min_le_right _ _

theorem sliceEnd_lb (c : SectionProofChain) (r : IdxRange) :
    sliceStart c r + 1 ≤ sliceEnd c r :=
  Nat.le_max_right _ _

theorem sliceEnd_ub (c : SectionProofChain) (r : IdxRange) :
    sliceEnd c r ≤ c.tail.length + 1 := by
  have h1 : min (r.hi.endIdx c.tail.length) (c.tail.length + 1) ≤ c.tail.length + 1 :=
    Nat.min_le_right _ _
  have h2 : sliceStart c r + 1 ≤ c.tail.length + 1 :=
    Nat.succ_le_succ (sliceStart_le_tail c r)
  exact max_le h1 h2

/-- The panic-explicit slice always succeeds and agrees with the total model:
none of the index manipulations of `slice` can reach an out-of-bounds access. -/
theorem sliceChecked_eq_some (c : SectionProofChain) (r : IdxRange) :
    sliceChecked c r = some (c.slice r) := by
  have hs := sliceStart_le_tail c r
  have he1 := sliceEnd_lb c r
  have he2 := sliceEnd_ub c r
  by_cases h0 : sliceStart c r = 0
  · rw [sliceChecked, slice, if_pos h0, if_pos h0, listSub,
      if_pos ⟨Nat.zero_le _, by omega⟩]
    simp
  · have hlt : sliceStart c r - 1 < c.tail.length := by omega
    rw [sliceChecked, slice, if_neg h0, if_neg h0, List.get?_eq_getElem?,
      List.getElem?_eq_getElem hlt, listSub, if_pos ⟨by omega, by omega⟩]
    simp

theorem len_slice (c : SectionProofChain) (r : IdxRange) :
    (c.slice r).len = sliceEnd c r - sliceStart c r := by
  have hs := sliceStart_le_tail c r
  have he1 := sliceEnd_lb c r
  have he2 := sliceEnd_ub c r
  by_cases h0 : sliceStart c r = 0
  · rw [slice, if_pos h0]
    simp only [len, List.length_take]
    omega
  · rw [slice, if_neg h0]
    simp only [len, List.length_take, List.length_drop]
    omega

/-- Key-sequence characterization of `slice`: the result's keys are the clamped
sub-segment of the original key sequence (index 0 is the head key, index `i ≥ 1`
is `tail[i-1]`). -/
theorem keys_slice (c : SectionProofChain) (r : IdxRange) :
    (c.slice r).keys =
      (c.keys.drop (sliceStart c r)).take (sliceEnd c r - sliceStart c r) := by
  have hs := sliceStart_le_tail c r
  have he1 := sliceEnd_lb c r
  have he2 := sliceEnd_ub c r
  by_cases h0 : sliceStart c r = 0
  · rw [slice, if_pos h0, h0]
    simp only [keys, List.drop_zero, Nat.sub_zero]
    have hes : sliceEnd c r = (sliceEnd c r - 1) + 1 := by omega
    conv_rhs => rw [hes]
    rw [List.take_succ_cons, List.map_take]
  · obtain ⟨n, hn⟩ : ∃ n, sliceStart c r = n + 1 := ⟨sliceStart c r - 1, by omega⟩
    have hlt : n < c.tail.length := by omega
    rw [slice, if_neg h0, hn]
    simp only [keys, Nat.add_sub_cancel, List.drop_succ_cons]
    rw [List.get?_eq_getElem?, List.getElem?_eq_getElem hlt]
    simp only [Option.map_some', Option.getD_some]
    rw [← List.map_drop, List.drop_eq_getElem_cons hlt, List.map_cons]
    have hes : sliceEnd c r - (n + 1) = (sliceEnd c r - 1 - (n + 1)) + 1 := by omega
    rw [hes, List.take_succ_cons, List.map_take]

theorem one_le_len_slice (c : SectionProofChain) (r : IdxRange) :
    1 ≤ (c.slice r).len := by
  rw [len]
  omega

end SectionProofChain

/-!
Claim C2: characterization of `push`.
-/

namespace SectionProofChain

theorem push_true_iff (V : KeyVerifier) (c : SectionProofChain) (k : PublicKey)
    (s : Signature) :
    (c.push V k s).2 = true ↔ (c.has_key k = false ∧ V c.last_key s k = true) := by
  by_cases h1 : c.has_key k <;> by_cases h2 : V c.last_key s k <;>
    simp [push, h1, h2]

theorem push_false_unchanged (V : KeyVerifier) (c : SectionProofChain)
    (k : PublicKey) (s : Signature) (h : (c.push V k s).2 = false) :
    (c.push V k s).1 = c := by
  rw [push] at h ⊢
  by_cases h1 : c.has_key k
  · simp [h1]
  · by_cases h2 : V c.last_key s k = true
    · simp [h1, h2] at h
    · simp [h1, h2]

theorem push_true_appends (V : KeyVerifier) (c : SectionProofChain)
    (k : PublicKey) (s : Signature) (h : (c.push V k s).2 = true) :
    (c.push V k s).1 = ⟨c.head, c.tail ++ [⟨k, s⟩]⟩ := by
  rw [push] at h ⊢
  by_cases h1 : c.has_key k
  · simp [h1] at h
  · by_cases h2 : V c.last_key s k = true
    · simp [h1, h2]
    · simp [h1, h2] at h

end SectionProofChain

/-- Claim C2: `push(key, signature)` returns true and appends exactly one block
if and only if the key is not already present and the signature is a valid
signature by the chain's current last key over the serialized key; in every
other case it returns false and leaves the chain entirely unchanged. -/
theorem claim_c2_push (V : KeyVerifier) (c : SectionProofChain) (k : PublicKey)
    (s : Signature) :
    ((c.push V k s).2 = true ↔ (c.has_key k = false ∧ V c.last_key s k = true))
    ∧ ((c.push V k s).2 = true →
        (c.push V k s).1 = ⟨c.head, c.tail ++ [⟨k, s⟩]⟩)
    ∧ ((c.push V k s).2 = false → (c.push V k s).1 = c) :=
  ⟨SectionProofChain.push_true_iff V c k s,
   SectionProofChain.push_true_appends V c k s,
   SectionProofChain.push_false_unchanged V c k s⟩

/-- Witness for claim C2: a concrete successful push appends the pushed block,
and a concrete replayed push leaves the chain unchanged. -/
theorem claim_c2_push_witness :
    ((SectionProofChain.new 0).push blsVerify 1 (0, 1)).1 =
      ⟨0, [⟨1, (0, 1)⟩]⟩
    ∧ ((⟨0, [⟨1, (0, 1)⟩]⟩ : SectionProofChain).push blsVerify 1 (9, 9)).1 =
      ⟨0, [⟨1, (0, 1)⟩]⟩ :=
  ⟨(claim_c2_push blsVerify (SectionProofChain.new 0) 1 (0, 1)).2.1 (by decide),
   (claim_c2_push blsVerify ⟨0, [⟨1, (0, 1)⟩]⟩ 1 (9, 9)).2.2 (by decide)⟩

namespace SectionProofChain

/-- The clamping-and-indexing stage of `slice` (downstream of the bound
arithmetic) is safe: the indexing model always returns a value equal to the
total model, the result has at least one key, its key sequence is the clamped
segment of the original keys, and an out-of-range or inverted pair of
resolved bounds degenerates to a one-key chain.  This does not cover the
bound resolution itself, whose arithmetic can overflow (see `sliceDebug`). -/
theorem slice_clamp_spec (c : SectionProofChain) (r : IdxRange) :
    sliceChecked c r = some (c.slice r)
    ∧ 1 ≤ (c.slice r).len
    ∧ (c.slice r).keys =
        (c.keys.drop (sliceStart c r)).take (sliceEnd c r - sliceStart c r)
    ∧ (c.len ≤ r.lo.startIdx ∨ r.hi.endIdx c.tail.length ≤ r.lo.startIdx →
        (c.slice r).len = 1) := by
  refine ⟨sliceChecked_eq_some c r, one_le_len_slice c r, keys_slice c r, ?_⟩
  intro h
  rw [len_slice]
  have hs := sliceStart_le_tail c r
  have he1 := sliceEnd_lb c r
  have he2 := sliceEnd_ub c r
  rcases h with h | h
  · have : sliceStart c r = c.tail.length := by
      rw [sliceStart]
      simp only [len] at h
      omega
    omega
  · rcases le_or_lt r.lo.startIdx c.tail.length with hcase | hcase
    · have hstart : sliceStart c r = r.lo.startIdx := Nat.min_eq_left hcase
      have : min (r.hi.endIdx c.tail.length) (c.tail.length + 1) ≤
          sliceStart c r := by
        rw [hstart]
        exact le_trans (Nat.min_le_left _ _) h
      have : sliceEnd c r = sliceStart c r + 1 := by
        rw [sliceEnd]
        omega
      omega
    · have hstart : sliceStart c r = c.tail.length :=
        Nat.min_eq_right (Nat.le_of_lt hcase)
      omega

/-- Where the checked bound arithmetic returns a value, it is the mathematical
value used by the total model. -/
theorem startIdxChecked_eq_startIdx (b : RangeBound) (v : Nat)
    (h : b.startIdxChecked = some v) : b.startIdx = v := by
  cases b with
  | inc i => exact Option.some_inj.mp h
  | exc i =>
      rw [RangeBound.startIdxChecked] at h
      by_cases hc : i + 1 < 2 ^ 64
      · rw [if_pos hc] at h
        exact Option.some_inj.mp h
      · rw [if_neg hc] at h
        exact Option.noConfusion h
  | unb => exact Option.some_inj.mp h

/-- Where the checked bound arithmetic returns a value, it is the mathematical
value used by the total model. -/
theorem endIdxChecked_eq_endIdx (tailLen : Nat) (b : RangeBound) (v : Nat)
    (h : RangeBound.endIdxChecked tailLen b = some v) :
    b.endIdx tailLen = v := by
  cases b with
  | inc i =>
      rw [RangeBound.endIdxChecked] at h
      by_cases hc : i + 1 < 2 ^ 64
      · rw [if_pos hc] at h
        exact Option.some_inj.mp h
      · rw [if_neg hc] at h
        exact Option.noConfusion h
  | exc i => exact Option.some_inj.mp h
  | unb => exact Option.some_inj.mp h

/-- When neither bound's arithmetic overflows, the fully panic-explicit slice
succeeds with the clamped result, as the function's documentation promises. -/
theorem sliceDebug_eq_some (c : SectionProofChain) (r : IdxRange)
    (h1 : (RangeBound.startIdxChecked r.lo).isSome = true)
    (h2 : (RangeBound.endIdxChecked c.tail.length r.hi).isSome = true) :
    sliceDebug c r = some (c.slice r) := by
  obtain ⟨v1, hv1⟩ := Option.isSome_iff_exists.mp h1
  obtain ⟨v2, hv2⟩ := Option.isSome_iff_exists.mp h2
  rw [sliceDebug, hv1, hv2]
  exact sliceChecked_eq_some c r

end SectionProofChain

/-- Claim C8 (code bug): the claim restates the function's documented
contract — indices are clamped and `slice` never panics — but resolving an
`Included(u64::MAX)` end bound computes `*index as usize + 1`, which
overflows: with debug assertions `slice` panics on the ordinary range
`0..=u64::MAX` for every chain (the overflow-explicit model returns `none`),
while the documented clamping semantics would return the whole chain at that
range (second conjunct, at a concrete two-key chain). -/
theorem claim_c8_slice_overflow :
    (∀ (c : SectionProofChain) (lo : SectionProofChain.RangeBound),
      SectionProofChain.sliceDebug c ⟨lo, .inc (2 ^ 64 - 1)⟩ = none)
    ∧ SectionProofChain.slice ⟨0, [⟨1, (0, 1)⟩]⟩
        ⟨.inc 0, .inc (2 ^ 64 - 1)⟩ = ⟨0, [⟨1, (0, 1)⟩]⟩ := by
  constructor
  · intro c lo
    have hpos : 0 < 2 ^ 64 := Nat.pos_pow_of_pos 64 (by omega)
    have he : SectionProofChain.RangeBound.endIdxChecked c.tail.length
        (.inc (2 ^ 64 - 1)) = none := by
      rw [SectionProofChain.RangeBound.endIdxChecked]
      rw [if_neg (by omega)]
    rw [SectionProofChain.sliceDebug]
    rw [he]
    cases hs : SectionProofChain.RangeBound.startIdxChecked lo with
    | none => rfl
    | some v => rfl
  · decide

/-!
Claim C1: `check_trust`.
-/

namespace SectionProofChain

/-- If the whole chain verifies from `cur`, so does every suffix, starting from
the key at the corresponding position. -/
theorem verifyBlocks_drop (V : KeyVerifier) :
    ∀ (bs : List Block) (cur : PublicKey), verifyBlocks V cur bs = true →
      ∀ i, verifyBlocks V ((cur :: bs.map Block.key).getD i 0) (bs.drop i) = true := by
  intro bs
  induction bs with
  | nil =>
      intro cur h i
      cases i <;> simp [verifyBlocks]
  | cons b rest ih =>
      intro cur h i
      rw [verifyBlocks, Bool.and_eq_true] at h
      cases i with
      | zero =>
          simp only [List.getD_cons_zero, List.drop_zero, verifyBlocks, Bool.and_eq_true]
          exact ⟨h.1, h.2⟩
      | succ n =>
          simp only [List.map_cons, List.getD_cons_succ, List.drop_succ_cons]
          exact ih b.key h.2 n

theorem latest_trusted_key_spec (c : SectionProofChain) (t : List PublicKey)
    (i : Nat) (k : PublicKey) (h : c.latest_trusted_key t = some (i, k)) :
    c.keys[i]? = some k ∧ t.contains k = true := by
  rw [latest_trusted_key] at h
  have hmem := List.mem_of_find?_eq_some h
  have hp := List.find?_some h
  rw [List.mem_reverse] at hmem
  exact ⟨List.mk_mem_enum_iff_getElem?.mp hmem, hp⟩

theorem latest_trusted_key_isSome (c : SectionProofChain) (t : List PublicKey)
    (h : t.contains c.first_key = true) :
    (c.latest_trusted_key t).isSome := by
  rw [latest_trusted_key, List.find?_isSome]
  refine ⟨(0, c.first_key), ?_, h⟩
  rw [List.mem_reverse, List.mk_mem_enum_iff_getElem?]
  simp [SectionProofChain.keys, SectionProofChain.first_key]

theorem latest_trusted_key_eq_none (c : SectionProofChain) (t : List PublicKey)
    (h : ∀ k ∈ c.keys, t.contains k = false) :
    c.latest_trusted_key t = none := by
  rw [latest_trusted_key, List.find?_eq_none]
  intro x hx
  rw [List.mem_reverse] at hx
  have hx2 : c.keys[x.1]? = some x.2 := List.mem_enum_iff_getElem?.mp hx
  have : x.2 ∈ c.keys := List.getElem?_mem hx2
  simpa using h x.2 this

end SectionProofChain

/-- Claim C1 (amended): `check_trust` returns `Trusted` when the trusted-key
set contains the chain's first key and the chain self-verifies; returns
`Unknown` when the trusted-key set is disjoint from all chain keys but the
chain self-verifies; and returns `Invalid` exactly in the corrected cases:
when a block located after the latest trusted key fails verification, or when
no chain key is trusted and the chain fails self-verification. -/
theorem claim_c1_check_trust (V : KeyVerifier) (c : SectionProofChain)
    (t : List PublicKey) :
    (t.contains c.first_key = true → c.self_verify V = true →
      c.check_trust V t = SectionProofChain.TrustStatus.Trusted)
    ∧ ((∀ k ∈ c.keys, t.contains k = false) → c.self_verify V = true →
      c.check_trust V t = SectionProofChain.TrustStatus.Unknown)
    ∧ (∀ i k, c.latest_trusted_key t = some (i, k) →
        SectionProofChain.verifyBlocks V k (c.tail.drop i) = false →
        c.check_trust V t = SectionProofChain.TrustStatus.Invalid)
    ∧ (c.latest_trusted_key t = none → c.self_verify V = false →
        c.check_trust V t = SectionProofChain.TrustStatus.Invalid) := by
  refine ⟨?_, ?_, ?_, ?_⟩
  · intro hfirst hsv
    have hsome := SectionProofChain.latest_trusted_key_isSome c t hfirst
    obtain ⟨⟨i, k⟩, hlk⟩ := Option.isSome_iff_exists.mp hsome
    obtain ⟨hget, _⟩ := SectionProofChain.latest_trusted_key_spec c t i k hlk
    have hver := SectionProofChain.verifyBlocks_drop V c.tail c.head hsv i
    have hkeys : (c.head :: c.tail.map Block.key).getD i 0 = k := by
      have : c.keys.getD i 0 = k := by
        rw [List.getD_eq_getElem?_getD, hget]
        rfl
      simpa [SectionProofChain.keys] using this
    rw [SectionProofChain.check_trust, hlk]
    rw [hkeys] at hver
    simp [hver]
  · intro hdisj hsv
    rw [SectionProofChain.check_trust,
      SectionProofChain.latest_trusted_key_eq_none c t hdisj]
    simp [hsv]
  · intro i k hlk hfail
    rw [SectionProofChain.check_trust, hlk]
    simp [hfail]
  · intro hnone hsv
    rw [SectionProofChain.check_trust, hnone]
    simp [hsv]

/-- Witness for claim C1: on the concrete self-verifying chain with keys
0, 1 trusting key 0 yields `Trusted`; trusting nothing yields `Unknown`. -/
theorem claim_c1_check_trust_witness :
    SectionProofChain.check_trust blsVerify ⟨0, [⟨1, (0, 1)⟩]⟩ [0] =
      SectionProofChain.TrustStatus.Trusted
    ∧ SectionProofChain.check_trust blsVerify ⟨0, [⟨1, (0, 1)⟩]⟩ [7] =
      SectionProofChain.TrustStatus.Unknown :=
  ⟨(claim_c1_check_trust blsVerify ⟨0, [⟨1, (0, 1)⟩]⟩ [0]).1 (by decide) (by decide),
   (claim_c1_check_trust blsVerify ⟨0, [⟨1, (0, 1)⟩]⟩ [7]).2.1
     (by decide) (by decide)⟩

/-- Counterexample to claim C1 as stated: in the chain with keys 0, 1, 2 the
first tail block (key 1) is corrupted — it fails verification against its
predecessor key 0 — yet `check_trust` against the trusted-key set containing
key 2 returns `Trusted`, not `Invalid`, because the corrupted block lies
before the latest trusted key. -/
theorem claim_c1_counterexample :
    Block.verify blsVerify ⟨1, (9, 9)⟩ 0 = false
    ∧ SectionProofChain.check_trust blsVerify
        ⟨0, [⟨1, (9, 9)⟩, ⟨2, (1, 2)⟩]⟩ [2] =
      SectionProofChain.TrustStatus.Trusted := by
  exact ⟨by decide, by decide⟩

/-!
Claim C5: `extend`.
-/

namespace SectionProofChain

theorem index_of_some (c : SectionProofChain) (k : PublicKey) (i : Nat)
    (h : c.index_of k = some i) :
    i < c.keys.length ∧ c.keys[i]? = some k := by
  rw [index_of, List.findIdx?_eq_some_iff_getElem] at h
  obtain ⟨hi, hp, _⟩ := h
  refine ⟨hi, ?_⟩
  rw [List.getElem?_eq_getElem hi]
  simpa using hp

theorem head?_keys (c : SectionProofChain) : c.keys.head? = some c.first_key := rfl

/-- The last element of the modelled key list is `last_key`. -/
theorem keys_getLast?_aux (h : PublicKey) (bs : List Block) :
    (h :: bs.map Block.key).getLast? = some ((bs.getLast?.map Block.key).getD h) := by
  induction bs generalizing h with
  | nil => rfl
  | cons b bs ih =>
      rw [List.map_cons, List.getLast?_cons_cons, ih b.key]
      cases bs with
      | nil => rfl
      | cons b2 bs2 =>
          obtain ⟨x, hx⟩ := Option.isSome_iff_exists.mp
            (List.getLast?_isSome.mpr (List.cons_ne_nil b2 bs2))
          rw [List.getLast?_cons_cons, hx]
          rfl

theorem keys_getLast? (c : SectionProofChain) :
    c.keys.getLast? = some c.last_key := by
  rw [keys, last_key, keys_getLast?_aux]

/-- Head of a drop-take segment. -/
theorem seg_head? {α : Type} (l : List α) (i j : Nat) (hij : i ≤ j)
    (hj : j < l.length) :
    ((l.drop i).take (j + 1 - i)).head? = l[i]? := by
  rw [List.head?_eq_getElem?, List.getElem?_take_of_lt (by omega),
    List.getElem?_drop]
  simp

/-- Last element of a drop-take segment. -/
theorem seg_getLast? {α : Type} (l : List α) (i j : Nat) (hij : i ≤ j)
    (hj : j < l.length) :
    ((l.drop i).take (j + 1 - i)).getLast? = l[j]? := by
  rw [List.getLast?_eq_getElem?]
  have hlen : ((l.drop i).take (j + 1 - i)).length = j + 1 - i := by
    simp only [List.length_take, List.length_drop]
    omega
  rw [hlen]
  have h2 : j + 1 - i - 1 = j - i := by omega
  rw [h2, List.getElem?_take_of_lt (by omega), List.getElem?_drop]
  congr 1
  omega

theorem sliceStartII (c : SectionProofChain) (i j : Nat) (hi : i ≤ c.tail.length) :
    sliceStart c (rangeII i j) = i := by
  simp only [sliceStart, rangeII, RangeBound.startIdx]
  omega

theorem sliceEndII (c : SectionProofChain) (i j : Nat) (hij : i ≤ j)
    (hj : j ≤ c.tail.length) :
    sliceEnd c (rangeII i j) = j + 1 := by
  rw [sliceEnd, sliceStartII c i j (le_trans hij hj)]
  simp only [rangeII, RangeBound.endIdx]
  omega

theorem keys_sliceII (c : SectionProofChain) (i j : Nat) (hij : i ≤ j)
    (hj : j ≤ c.tail.length) :
    (c.slice (rangeII i j)).keys = (c.keys.drop i).take (j + 1 - i) := by
  rw [keys_slice, sliceStartII c i j (le_trans hij hj), sliceEndII c i j hij hj]

theorem first_key_sliceII (c : SectionProofChain) (i j : Nat) (hij : i ≤ j)
    (hj : j ≤ c.tail.length) :
    some (c.slice (rangeII i j)).first_key = c.keys[i]? := by
  rw [← head?_keys, keys_sliceII c i j hij hj]
  exact seg_head? c.keys i j hij (by rw [keys_length]; omega)

theorem last_key_sliceII (c : SectionProofChain) (i j : Nat) (hij : i ≤ j)
    (hj : j ≤ c.tail.length) :
    some (c.slice (rangeII i j)).last_key = c.keys[j]? := by
  rw [← keys_getLast?, keys_sliceII c i j hij hj]
  exact seg_getLast? c.keys i j hij (by rw [keys_length]; omega)

end SectionProofChain

/-- Claim C5 (amended): `extend` applies its checks in order — first
`AlreadySufficient` when `new_first_key` is already in `self`, then
`InvalidFirstKey` when `new_first_key` is absent from `full_chain`, then
`InvalidLastKey` when `self`'s last key is absent from `full_chain`, then
`InvalidFirstKey` when `new_first_key` sorts after the last key in
`full_chain`; on success the result's first key is `new_first_key` and its
last key is `self`'s old last key. -/
theorem claim_c5_extend (c : SectionProofChain) (nfk : PublicKey)
    (full : SectionProofChain) :
    (c.has_key nfk = true →
      c.extend nfk full = .error SectionProofChain.ExtendError.AlreadySufficient)
    ∧ (c.has_key nfk = false → full.index_of nfk = none →
      c.extend nfk full = .error SectionProofChain.ExtendError.InvalidFirstKey)
    ∧ (∀ i_f, c.has_key nfk = false → full.index_of nfk = some i_f →
      full.index_of c.last_key = none →
      c.extend nfk full = .error SectionProofChain.ExtendError.InvalidLastKey)
    ∧ (∀ i_f i_t, c.has_key nfk = false → full.index_of nfk = some i_f →
      full.index_of c.last_key = some i_t → i_t < i_f →
      c.extend nfk full = .error SectionProofChain.ExtendError.InvalidFirstKey)
    ∧ (∀ i_f i_t, c.has_key nfk = false → full.index_of nfk = some i_f →
      full.index_of c.last_key = some i_t → i_f ≤ i_t →
      c.extend nfk full = .ok (full.slice (SectionProofChain.rangeII i_f i_t))
      ∧ (full.slice (SectionProofChain.rangeII i_f i_t)).first_key = nfk
      ∧ (full.slice (SectionProofChain.rangeII i_f i_t)).last_key = c.last_key) := by
  refine ⟨?_, ?_, ?_, ?_, ?_⟩
  · intro h1
    rw [SectionProofChain.extend, if_pos h1]
  · intro h1 h2
    rw [SectionProofChain.extend, if_neg (by simp [h1]), h2]
  · intro i_f h1 h2 h3
    rw [SectionProofChain.extend, if_neg (by simp [h1]), h2, h3]
  · intro i_f i_t h1 h2 h3 h4
    rw [SectionProofChain.extend, if_neg (by simp [h1]), h2, h3]
    simp [h4]
  · intro i_f i_t h1 h2 h3 h4
    obtain ⟨hfl, hfk⟩ := SectionProofChain.index_of_some full nfk i_f h2
    obtain ⟨htl, htk⟩ := SectionProofChain.index_of_some full c.last_key i_t h3
    have hjt : i_t ≤ full.tail.length := by
      rw [SectionProofChain.keys_length] at htl
      omega
    refine ⟨?_, ?_, ?_⟩
    · rw [SectionProofChain.extend, if_neg (by simp [h1]), h2, h3]
      simp [show ¬ i_t < i_f by omega]
    · have := SectionProofChain.first_key_sliceII full i_f i_t h4 hjt
      rw [hfk] at this
      exact Option.some_inj.mp this
    · have := SectionProofChain.last_key_sliceII full i_f i_t h4 hjt
      rw [htk] at this
      exact Option.some_inj.mp this

/-- Witness for claim C5: the spec's end-to-end example — extending the chain
with single key 1 to start at key 0, using the full chain with keys 0, 1, 2,
succeeds and produces the chain with keys 0, 1. -/
theorem claim_c5_extend_witness :
    (SectionProofChain.new 1).extend 0 ⟨0, [⟨1, (0, 1)⟩, ⟨2, (1, 2)⟩]⟩ =
      .ok ((⟨0, [⟨1, (0, 1)⟩, ⟨2, (1, 2)⟩]⟩ : SectionProofChain).slice
        (SectionProofChain.rangeII 0 1))
    ∧ ((⟨0, [⟨1, (0, 1)⟩, ⟨2, (1, 2)⟩]⟩ : SectionProofChain).slice
        (SectionProofChain.rangeII 0 1)).first_key = 0
    ∧ ((⟨0, [⟨1, (0, 1)⟩, ⟨2, (1, 2)⟩]⟩ : SectionProofChain).slice
        (SectionProofChain.rangeII 0 1)).last_key = 1 :=
  (claim_c5_extend (SectionProofChain.new 1) 0
    ⟨0, [⟨1, (0, 1)⟩, ⟨2, (1, 2)⟩]⟩).2.2.2.2 0 1 (by decide) (by decide)
    (by decide) (by decide)

/-- Counterexample to claim C5 as stated: with `new_first_key = 5` absent from
`full_chain` but already present in `self`, `extend` returns
`AlreadySufficient`, not the `InvalidFirstKey` the claim requires for a first
key that is not found in `full_chain` — the checks are ordered. -/
theorem claim_c5_counterexample :
    (SectionProofChain.new 5).extend 5 (SectionProofChain.new 7) =
      .error SectionProofChain.ExtendError.AlreadySufficient
    ∧ (SectionProofChain.new 7).has_key 5 = false
    ∧ (SectionProofChain.new 5).extend 5 (SectionProofChain.new 7) ≠
      .error SectionProofChain.ExtendError.InvalidFirstKey := by
  refine ⟨rfl, by decide, ?_⟩
  intro h
  exact absurd (Except.error.inj h) (by decide)

/-!
Claim C9: `trimmed`.
-/

namespace SectionProofChain

theorem sliceStartFrom (c : SectionProofChain) (f : Nat) (hf : f ≤ c.tail.length) :
    sliceStart c (rangeFrom f) = f := by
  simp only [sliceStart, rangeFrom, RangeBound.startIdx]
  omega

theorem sliceEndFrom (c : SectionProofChain) (f : Nat) (hf : f ≤ c.tail.length) :
    sliceEnd c (rangeFrom f) = c.tail.length + 1 := by
  rw [sliceEnd, sliceStartFrom c f hf]
  simp only [rangeFrom, RangeBound.endIdx]
  omega

theorem keys_sliceFrom (c : SectionProofChain) (f : Nat) (hf : f ≤ c.tail.length) :
    (c.slice (rangeFrom f)).keys = c.keys.drop f := by
  rw [keys_slice, sliceStartFrom c f hf, sliceEndFrom c f hf]
  apply List.take_of_length_le
  simp only [List.length_drop, keys_length]
  omega

theorem last_key_sliceFrom (c : SectionProofChain) (f : Nat)
    (hf : f ≤ c.tail.length) :
    (c.slice (rangeFrom f)).last_key = c.last_key := by
  have h1 : some (c.slice (rangeFrom f)).last_key = (c.keys.drop f).getLast? := by
    rw [← keys_getLast?, keys_sliceFrom c f hf]
  have h2 : (c.keys.drop f).getLast? = c.keys[c.tail.length]? := by
    rw [List.getLast?_eq_getElem?]
    simp only [List.length_drop, keys_length]
    rw [List.getElem?_drop]
    congr 1
    omega
  have h3 : c.keys.getLast? = c.keys[c.tail.length]? := by
    rw [List.getLast?_eq_getElem?, keys_length]
    congr 1
    omega
  rw [h2, ← h3, keys_getLast?] at h1
  exact Option.some_inj.mp h1

end SectionProofChain

/-- Claim C9 (amended): `trimmed(chain_len)` keeps the elders info, empties the
members, and replaces the chain by the slice of the original chain consisting
of its last `max chain_len 1` blocks at most (a zero `chain_len` is silently
treated as one, so the result always has at least the last key); the result's
key sequence is a suffix of the original's and its last key equals the
original's last key. -/
theorem claim_c9_trimmed (s : Section) (chain_len : Nat) :
    (s.trimmed chain_len).elders_info = s.elders_info
    ∧ (s.trimmed chain_len).members = ⟨[]⟩
    ∧ (s.trimmed chain_len).chain =
        s.chain.slice (SectionProofChain.rangeFrom
          (s.chain.last_key_index - (chain_len - 1)))
    ∧ (s.trimmed chain_len).chain.keys =
        s.chain.keys.drop (s.chain.last_key_index - (chain_len - 1))
    ∧ (s.trimmed chain_len).chain.len ≤ max chain_len 1
    ∧ (s.trimmed chain_len).chain.last_key = s.chain.last_key := by
  have hf : s.chain.last_key_index - (chain_len - 1) ≤ s.chain.tail.length :=
    Nat.sub_le _ _
  refine ⟨rfl, rfl, rfl, ?_, ?_, ?_⟩
  · exact SectionProofChain.keys_sliceFrom s.chain _ hf
  · show (s.chain.slice (SectionProofChain.rangeFrom _)).len ≤ max chain_len 1
    rw [SectionProofChain.len_slice, SectionProofChain.sliceStartFrom _ _ hf,
      SectionProofChain.sliceEndFrom _ _ hf]
    simp only [SectionProofChain.last_key_index]
    omega
  · exact SectionProofChain.last_key_sliceFrom s.chain _ hf

/-- Counterexample to claim C9 as stated: with `chain_len = 0` the trimmed
section's chain still has one block, not at most zero — `trimmed` silently
replaces a zero length with one. -/
theorem claim_c9_counterexample :
    ¬ ((Section.trimmed
        ⟨⟨[]⟩, ⟨⟨[], [], 0⟩, ⟨0, (0, 0)⟩⟩, ⟨0, [⟨1, (0, 1)⟩]⟩⟩ 0).chain.len ≤ 0) := by
  decide

/-!
Claim C4: `SectionPeers::update`.
-/

namespace SectionPeers

theorem lookup_append_singleton_self (l : List (XorName × Proven MemberInfo))
    (name : XorName) (v : Proven MemberInfo) (h : l.lookup name = none) :
    (l ++ [(name, v)]).lookup name = some v := by
  induction l with
  | nil => simp [List.lookup]
  | cons kv l ih =>
      obtain ⟨k, w⟩ := kv
      rw [List.lookup] at h
      show List.lookup name ((k, w) :: (l ++ [(name, v)])) = some v
      rw [List.lookup]
      by_cases hk : (name == k) = true
      · rw [hk] at h
        exact absurd h (by simp)
      · rw [Bool.not_eq_true] at hk
        rw [hk] at h ⊢
        exact ih h

theorem lookup_append_singleton_other (l : List (XorName × Proven MemberInfo))
    (name n : XorName) (v : Proven MemberInfo) (h : n ≠ name) :
    (l ++ [(name, v)]).lookup n = l.lookup n := by
  have hb : (n == name) = false := beq_eq_false_iff_ne.mpr h
  induction l with
  | nil => simp [List.lookup, hb]
  | cons kv l ih =>
      obtain ⟨k, w⟩ := kv
      show List.lookup n ((k, w) :: (l ++ [(name, v)])) = List.lookup n ((k, w) :: l)
      rw [List.lookup, List.lookup]
      by_cases hk : (n == k) = true
      · rw [hk]
      · rw [Bool.not_eq_true] at hk
        rw [hk]
        exact ih

theorem lookup_replaceEntry_self (l : List (XorName × Proven MemberInfo))
    (name : XorName) (v old : Proven MemberInfo) (h : l.lookup name = some old) :
    (replaceEntry l name v).lookup name = some v := by
  induction l with
  | nil => simp [List.lookup] at h
  | cons kv l ih =>
      obtain ⟨k, w⟩ := kv
      rw [List.lookup] at h
      rw [replaceEntry, List.map_cons]
      by_cases hk : k = name
      · rw [if_pos (by simpa using hk), List.lookup]
        simp
      · rw [if_neg (by simpa using hk), List.lookup]
        have hne : (name == k) = false := by
          simp only [beq_eq_false_iff_ne, ne_eq]
          exact fun hc => hk hc.symm
        rw [hne] at h ⊢
        exact ih h

theorem lookup_replaceEntry_other (l : List (XorName × Proven MemberInfo))
    (name n : XorName) (v : Proven MemberInfo) (h : n ≠ name) :
    (replaceEntry l name v).lookup n = l.lookup n := by
  have h1 : (n == name) = false := beq_eq_false_iff_ne.mpr h
  induction l with
  | nil => rfl
  | cons kv l ih =>
      obtain ⟨k, w⟩ := kv
      rw [replaceEntry, List.map_cons]
      by_cases hk : k = name
      · rw [if_pos (by simpa using hk), List.lookup, List.lookup]
        have h2 : (n == k) = false := by
          rw [hk]
          exact h1
        rw [h1, h2]
        exact ih
      · rw [if_neg (by simpa using hk), List.lookup, List.lookup]
        by_cases hn : (n == k) = true
        · rw [hn]
        · rw [Bool.not_eq_true] at hn
          rw [hn]
          exact ih

/-- The inline match of `update` agrees with `allowedTransition`. -/
theorem update_ok_eq_allowed (old new_info : Proven MemberInfo) :
    (match old.value.state, new_info.value.state with
      | PeerState.Joined, PeerState.Joined =>
          decide (old.value.peer.age < new_info.value.peer.age)
      | PeerState.Joined, PeerState.Left => true
      | PeerState.Joined, PeerState.Relocated _ => true
      | PeerState.Relocated _, PeerState.Left => true
      | _, _ => false) = allowedTransition old new_info := rfl

end SectionPeers

/-- Claim C4: `update` inserts and returns true when no record exists for the
peer name; when a record exists it replaces it and returns true exactly for
the transitions Joined→Joined with strictly greater age, Joined→Left,
Joined→Relocated and Relocated→Left; in every other case it returns false and
leaves the container — in particular the stored record — unchanged. -/
theorem claim_c4_update (s : SectionPeers) (new_info : Proven MemberInfo) :
    ((s.update new_info).2 = true ↔
      (s.members.lookup new_info.value.peer.name = none
        ∨ ∃ old, s.members.lookup new_info.value.peer.name = some old
            ∧ SectionPeers.allowedTransition old new_info = true))
    ∧ ((s.update new_info).2 = false → (s.update new_info).1 = s)
    ∧ ((s.update new_info).2 = true →
        (s.update new_info).1.members.lookup new_info.value.peer.name = some new_info
        ∧ ∀ n, n ≠ new_info.value.peer.name →
            (s.update new_info).1.members.lookup n = s.members.lookup n) := by
  rcases hl : s.members.lookup new_info.value.peer.name with _ | old
  · have hupd : s.update new_info =
        (⟨s.members ++ [(new_info.value.peer.name, new_info)]⟩, true) := by
      rw [SectionPeers.update]
      simp only [hl]
    refine ⟨?_, ?_, ?_⟩
    · rw [hupd]
      simp [hl]
    · rw [hupd]
      intro h
      exact Bool.noConfusion h
    · rw [hupd]
      intro _
      refine ⟨?_, ?_⟩
      · exact SectionPeers.lookup_append_singleton_self _ _ _ hl
      · intro n hn
        exact SectionPeers.lookup_append_singleton_other _ _ _ _ hn
  · by_cases ha : SectionPeers.allowedTransition old new_info = true
    · have hupd : s.update new_info =
          (⟨SectionPeers.replaceEntry s.members new_info.value.peer.name new_info⟩,
            true) := by
        rw [SectionPeers.update]
        simp only [hl, SectionPeers.update_ok_eq_allowed, ha, if_true]
      refine ⟨?_, ?_, ?_⟩
      · rw [hupd]
        simp only [true_iff]
        exact Or.inr ⟨old, rfl, ha⟩
      · rw [hupd]
        intro h
        exact Bool.noConfusion h
      · rw [hupd]
        intro _
        refine ⟨?_, ?_⟩
        · exact SectionPeers.lookup_replaceEntry_self _ _ _ _ hl
        · intro n hn
          exact SectionPeers.lookup_replaceEntry_other _ _ _ _ hn
    · rw [Bool.not_eq_true] at ha
      have hupd : s.update new_info = (s, false) := by
        rw [SectionPeers.update]
        simp only [hl, SectionPeers.update_ok_eq_allowed, ha, Bool.false_eq_true,
          if_false]
      refine ⟨?_, ?_, ?_⟩
      · rw [hupd]
        constructor
        · intro h
          exact Bool.noConfusion h
        · rintro (h | ⟨old', hold', hall⟩)
          · exact Option.noConfusion h
          · obtain rfl : old = old' := Option.some_inj.mp hold'
            rw [ha] at hall
            exact Bool.noConfusion hall
      · intro _
        rw [hupd]
      · rw [hupd]
        intro h
        exact Bool.noConfusion h

/-- Witness for claim C4: re-applying an identical Joined record of age 5 is
rejected leaving the container unchanged, applying a Left record after
Joined(age 5) succeeds, and applying a Joined(age 6) record after Left is
rejected. -/
theorem claim_c4_update_witness :
    (SectionPeers.update ⟨[([true], ⟨⟨⟨[true], 5⟩, .Joined⟩, ⟨0, (0, 0)⟩⟩)]⟩
        ⟨⟨⟨[true], 5⟩, .Joined⟩, ⟨0, (0, 0)⟩⟩).1 =
      ⟨[([true], ⟨⟨⟨[true], 5⟩, .Joined⟩, ⟨0, (0, 0)⟩⟩)]⟩
    ∧ (SectionPeers.update ⟨[([true], ⟨⟨⟨[true], 5⟩, .Joined⟩, ⟨0, (0, 0)⟩⟩)]⟩
        ⟨⟨⟨[true], 5⟩, .Left⟩, ⟨0, (0, 1)⟩⟩).2 = true
    ∧ (SectionPeers.update ⟨[([true], ⟨⟨⟨[true], 5⟩, .Left⟩, ⟨0, (0, 1)⟩⟩)]⟩
        ⟨⟨⟨[true], 6⟩, .Joined⟩, ⟨0, (0, 2)⟩⟩).1 =
      ⟨[([true], ⟨⟨⟨[true], 5⟩, .Left⟩, ⟨0, (0, 1)⟩⟩)]⟩ :=
  ⟨(claim_c4_update ⟨[([true], ⟨⟨⟨[true], 5⟩, .Joined⟩, ⟨0, (0, 0)⟩⟩)]⟩
      ⟨⟨⟨[true], 5⟩, .Joined⟩, ⟨0, (0, 0)⟩⟩).2.1 (by decide),
   (claim_c4_update ⟨[([true], ⟨⟨⟨[true], 5⟩, .Joined⟩, ⟨0, (0, 0)⟩⟩)]⟩
      ⟨⟨⟨[true], 5⟩, .Left⟩, ⟨0, (0, 1)⟩⟩).1.mpr
     (Or.inr ⟨⟨⟨⟨[true], 5⟩, .Joined⟩, ⟨0, (0, 0)⟩⟩, by decide, by decide⟩),
   (claim_c4_update ⟨[([true], ⟨⟨⟨[true], 5⟩, .Left⟩, ⟨0, (0, 1)⟩⟩)]⟩
      ⟨⟨⟨[true], 6⟩, .Joined⟩, ⟨0, (0, 2)⟩⟩).2.1 (by decide)⟩

/-!
Claim C7: `Section::update_elders`.
-/

/-- Claim C7: `update_elders` returns false and leaves the whole section
unchanged when the new elders info fails self-verification or the chain push
of its key fails; when it returns true, the chain has the new key appended as
one block, the elders info is replaced, and the members are exactly those of
the old container whose name matches the new prefix (members matching the
prefix are kept unchanged, the others removed). -/
theorem claim_c7_update_elders (V : KeyVerifier) (VE : EldersVerifier)
    (s : Section) (nei : Proven EldersInfo) (kp : Proof) :
    (nei.self_verify VE = false → s.update_elders V VE nei kp = (s, false))
    ∧ ((s.chain.push V nei.proof.public_key kp.signature).2 = false →
        s.update_elders V VE nei kp = (s, false))
    ∧ ((s.update_elders V VE nei kp).2 = true →
        (s.update_elders V VE nei kp).1.chain =
          ⟨s.chain.head, s.chain.tail ++ [⟨nei.proof.public_key, kp.signature⟩]⟩
        ∧ (s.update_elders V VE nei kp).1.elders_info = nei
        ∧ (s.update_elders V VE nei kp).1.members =
            ⟨s.members.members.filter (fun kv => Pfx.matches nei.value.pfx kv.1)⟩) := by
  refine ⟨?_, ?_, ?_⟩
  · intro h
    rw [Section.update_elders, if_neg (by simp [h])]
  · intro hp
    rw [Section.update_elders]
    by_cases hsv : nei.self_verify VE = true
    · rw [if_pos hsv, if_neg (by simp [hp]),
        SectionProofChain.push_false_unchanged V s.chain _ _ hp]
    · rw [if_neg hsv]
  · intro ht
    rw [Section.update_elders] at ht ⊢
    by_cases hsv : nei.self_verify VE = true
    · rw [if_pos hsv] at ht ⊢
      by_cases hp : (s.chain.push V nei.proof.public_key kp.signature).2 = true
      · rw [if_pos hp] at ht ⊢
        exact ⟨SectionProofChain.push_true_appends V s.chain _ _ hp, rfl, rfl⟩
      · rw [if_neg hp] at ht
        exact Bool.noConfusion ht
    · rw [if_neg hsv] at ht
      exact Bool.noConfusion ht

/-- Witness for claim C7: a concrete failing update (bad self-signature) leaves
the section unchanged, and a concrete successful update appends the new key,
replaces the elders info and keeps exactly the matching member. -/
theorem claim_c7_update_elders_witness :
    Section.update_elders blsVerify
      (fun pk sg e => decide (sg = (pk, e.version)))
      ⟨⟨[([true], ⟨⟨⟨[true], 5⟩, .Joined⟩, ⟨0, (0, 0)⟩⟩)]⟩,
        ⟨⟨[], [], 0⟩, ⟨0, (0, 0)⟩⟩, ⟨0, []⟩⟩
      ⟨⟨[true], [], 1⟩, ⟨1, (9, 9)⟩⟩ ⟨1, (0, 1)⟩ =
      (⟨⟨[([true], ⟨⟨⟨[true], 5⟩, .Joined⟩, ⟨0, (0, 0)⟩⟩)]⟩,
        ⟨⟨[], [], 0⟩, ⟨0, (0, 0)⟩⟩, ⟨0, []⟩⟩, false)
    ∧ (Section.update_elders blsVerify
        (fun pk sg e => decide (sg = (pk, e.version)))
        ⟨⟨[([true], ⟨⟨⟨[true], 5⟩, .Joined⟩, ⟨0, (0, 0)⟩⟩),
            ([false], ⟨⟨⟨[false], 5⟩, .Joined⟩, ⟨0, (0, 0)⟩⟩)]⟩,
          ⟨⟨[], [], 0⟩, ⟨0, (0, 0)⟩⟩, ⟨0, []⟩⟩
        ⟨⟨[true], [], 1⟩, ⟨1, (1, 1)⟩⟩ ⟨1, (0, 1)⟩).1.chain =
      ⟨0, [⟨1, (0, 1)⟩]⟩ :=
  ⟨(claim_c7_update_elders blsVerify
      (fun pk sg e => decide (sg = (pk, e.version)))
      ⟨⟨[([true], ⟨⟨⟨[true], 5⟩, .Joined⟩, ⟨0, (0, 0)⟩⟩)]⟩,
        ⟨⟨[], [], 0⟩, ⟨0, (0, 0)⟩⟩, ⟨0, []⟩⟩
      ⟨⟨[true], [], 1⟩, ⟨1, (9, 9)⟩⟩ ⟨1, (0, 1)⟩).1 (by decide),
   ((claim_c7_update_elders blsVerify
      (fun pk sg e => decide (sg = (pk, e.version)))
      ⟨⟨[([true], ⟨⟨⟨[true], 5⟩, .Joined⟩, ⟨0, (0, 0)⟩⟩),
          ([false], ⟨⟨⟨[false], 5⟩, .Joined⟩, ⟨0, (0, 0)⟩⟩)]⟩,
        ⟨⟨[], [], 0⟩, ⟨0, (0, 0)⟩⟩, ⟨0, []⟩⟩
      ⟨⟨[true], [], 1⟩, ⟨1, (1, 1)⟩⟩ ⟨1, (0, 1)⟩).2.2 (by decide)).1⟩

/-!
Claim C10: `merge` never verifies signatures.
-/

namespace SectionProofChain

/-- The outcome of `merge` and the key sequence of its result depend only on
the key sequences of the two inputs, not on the stored signatures. -/
theorem merge_keys_only (a b a' b' : SectionProofChain)
    (ha : a.keys = a'.keys) (hb : b.keys = b'.keys) :
    (a.merge b).map keys = (a'.merge b').map keys := by
  have hhead : a.head = a'.head := (List.cons.inj ha).1
  have htail : a.tail.map Block.key = a'.tail.map Block.key := (List.cons.inj ha).2
  have hbhead : b.head = b'.head := (List.cons.inj hb).1
  have hbtail : b.tail.map Block.key = b'.tail.map Block.key := (List.cons.inj hb).2
  have hfb : b'.first_key = b.first_key := by rw [first_key, first_key, hbhead]
  have hfa : a'.first_key = a.first_key := by rw [first_key, first_key, hhead]
  have hla : a'.last_key = a.last_key := by
    have h2 := keys_getLast? a'
    rw [← ha, keys_getLast? a] at h2
    exact (Option.some_inj.mp h2).symm
  have hlb : b'.last_key = b.last_key := by
    have h2 := keys_getLast? b'
    rw [← hb, keys_getLast? b] at h2
    exact (Option.some_inj.mp h2).symm
  have hioa : ∀ x, a'.index_of x = a.index_of x := by
    intro x
    rw [index_of, index_of, ha]
  have hiob : ∀ x, b'.index_of x = b.index_of x := by
    intro x
    rw [index_of, index_of, hb]
  have hhka : ∀ x, a'.has_key x = a.has_key x := by
    intro x
    rw [has_key, has_key, ha]
  have hhkb : ∀ x, b'.has_key x = b.has_key x := by
    intro x
    rw [has_key, has_key, hb]
  rw [merge, merge, hfb, hioa, ← ha, ← hb, hfa, hiob, hlb, hhka, hla, hhkb]
  cases hcase : a.index_of b.first_key with
  | some first =>
      dsimp only
      by_cases hsame : check_same_keys (a.keys.drop (first + 1)) (b.keys.drop 1) = true
      · by_cases hhas : a.has_key b.last_key = true
        · simp only [hsame, hhas, eq_self_iff_true, if_true, Except.map]
          rw [ha]
        · rw [Bool.not_eq_true] at hhas
          simp only [hsame, hhas, eq_self_iff_true, if_true, Bool.false_eq_true,
            if_false, Except.map]
          simp only [keys]
          rw [List.map_append, List.map_append, List.map_take, List.map_take,
            htail, hbtail, hhead]
      · rw [Bool.not_eq_true] at hsame
        simp only [hsame, Bool.false_eq_true, if_false]
  | none =>
      dsimp only
      cases hcase2 : b.index_of a.first_key with
      | some first =>
          dsimp only
          by_cases hsame : check_same_keys (a.keys.drop 1) (b.keys.drop (first + 1)) = true
          · by_cases hhas : b.has_key a.last_key = true
            · simp only [hsame, hhas, eq_self_iff_true, if_true, Except.map]
              simp only [keys]
              rw [hbhead, hbtail]
            · rw [Bool.not_eq_true] at hhas
              simp only [hsame, hhas, eq_self_iff_true, if_true, Bool.false_eq_true,
                if_false, Except.map]
              simp only [keys]
              rw [List.map_append, List.map_append, List.map_take, List.map_take,
                hbtail, htail, hbhead]
          · rw [Bool.not_eq_true] at hsame
            simp only [hsame, Bool.false_eq_true, if_false]
      | none => rfl

end SectionProofChain

/-- Claim C10: `merge` never verifies any signature — its outcome and the key
sequence of the merged chain are identical for any two runs whose inputs have
the same key sequences but arbitrarily different signatures; consequently a
merge can succeed on a chain that fails `self_verify` (concrete second and
third conjuncts). -/
theorem claim_c10_merge_ignores_signatures :
    (∀ a b a' b' : SectionProofChain, a.keys = a'.keys → b.keys = b'.keys →
      (a.merge b).map SectionProofChain.keys =
        (a'.merge b').map SectionProofChain.keys)
    ∧ SectionProofChain.merge ⟨0, [⟨1, (9, 9)⟩]⟩ (SectionProofChain.new 1) =
        .ok ⟨0, [⟨1, (9, 9)⟩]⟩
    ∧ SectionProofChain.self_verify blsVerify ⟨0, [⟨1, (9, 9)⟩]⟩ = false :=
  ⟨SectionProofChain.merge_keys_only, rfl, by decide⟩

/-!
Claim C6: merging complementary slices of one chain.
-/

namespace SectionProofChain

theorem check_same_keys_nil_left (l : List PublicKey) :
    check_same_keys [] l = true := rfl

theorem check_same_keys_nil_right (l : List PublicKey) :
    check_same_keys l [] = true := by
  rw [check_same_keys, List.zip_nil_right]
  rfl

/-- Structural form of an in-range closed slice. -/
theorem sliceII_mk (c : SectionProofChain) (i j : Nat) (hij : i ≤ j)
    (hj : j ≤ c.tail.length) :
    c.slice (rangeII i j) = ⟨c.keys.getD i 0, (c.tail.drop i).take (j - i)⟩ := by
  have hi : i ≤ c.tail.length := le_trans hij hj
  rw [slice, sliceStartII c i j hi, sliceEndII c i j hij hj]
  simp only [Nat.add_sub_cancel]
  by_cases h0 : i = 0
  · rw [if_pos h0, h0]
    simp [keys]
  · rw [if_neg h0]
    obtain ⟨n, rfl⟩ : ∃ n, i = n + 1 := ⟨i - 1, by omega⟩
    have hlt : n < c.tail.length := by omega
    simp only [Nat.add_sub_cancel]
    rw [List.get?_eq_getElem?, List.getElem?_eq_getElem hlt]
    simp only [Option.map_some', Option.getD_some, keys, List.getD_cons_succ]
    congr 1
    rw [List.getD_eq_getElem?_getD, List.getElem?_map,
      List.getElem?_eq_getElem hlt]
    rfl

theorem slice_full (c : SectionProofChain) :
    c.slice (rangeII 0 c.tail.length) = c := by
  rw [sliceII_mk c 0 c.tail.length (Nat.zero_le _) (le_refl _)]
  obtain ⟨h, t⟩ := c
  simp [keys]

theorem length_keys_sliceII (c : SectionProofChain) (i j : Nat) (hij : i ≤ j)
    (hj : j ≤ c.tail.length) :
    (c.slice (rangeII i j)).keys.length = j + 1 - i := by
  rw [keys_sliceII c i j hij hj]
  simp only [List.length_take, List.length_drop, keys_length]
  omega

theorem getElem?_keys_sliceII (c : SectionProofChain) (i j m : Nat) (hij : i ≤ j)
    (hj : j ≤ c.tail.length) (hm : m ≤ j - i) :
    (c.slice (rangeII i j)).keys[m]? = c.keys[i + m]? := by
  rw [keys_sliceII c i j hij hj, List.getElem?_take_of_lt (by omega),
    List.getElem?_drop]

theorem nodup_keys_sliceII (c : SectionProofChain) (i j : Nat) (hij : i ≤ j)
    (hj : j ≤ c.tail.length) (hnd : c.keys.Nodup) :
    (c.slice (rangeII i j)).keys.Nodup := by
  refine List.Nodup.sublist ?_ hnd
  rw [keys_sliceII c i j hij hj]
  exact (List.take_sublist _ _).trans (List.drop_sublist _ _)

/-- In a duplicate-free list, searching for the element at position `n` finds
exactly position `n`. -/
theorem findIdx?_beq_nodup (l : List PublicKey) (hl : l.Nodup) (n : Nat)
    (x : PublicKey) (hx : l[n]? = some x) :
    l.findIdx? (fun existing_key => existing_key == x) = some n := by
  have hn : n < l.length := by
    by_contra hc
    rw [List.getElem?_eq_none (by omega)] at hx
    exact Option.noConfusion hx
  have hget : l[n] = x := by
    rw [List.getElem?_eq_getElem hn] at hx
    exact Option.some_inj.mp hx
  rw [List.findIdx?_eq_some_iff_getElem]
  refine ⟨hn, by simp [hget], ?_⟩
  intro m hm
  simp only [Bool.not_eq_true, beq_eq_false_iff_ne, ne_eq]
  intro he
  rw [← hget] at he
  exact absurd ((hl.getElem_inj_iff).mp he) (by omega)

/-- In a duplicate-free chain, a key at position `n` of the full key list is
not a member of a slice not containing position `n`. -/
theorem not_mem_keys_sliceII (c : SectionProofChain) (i j n : Nat) (hij : i ≤ j)
    (hj : j ≤ c.tail.length) (hn : n < c.keys.length) (hnd : c.keys.Nodup)
    (hout : n < i ∨ j < n) (x : PublicKey) (hx : c.keys[n]? = some x) :
    ¬ x ∈ (c.slice (rangeII i j)).keys := by
  intro hmem
  obtain ⟨m, hm, hgm⟩ := List.getElem_of_mem hmem
  have hmlen : m ≤ j - i := by
    have := length_keys_sliceII c i j hij hj
    omega
  have h1 : (c.slice (rangeII i j)).keys[m]? = c.keys[i + m]? :=
    getElem?_keys_sliceII c i j m hij hj hmlen
  rw [List.getElem?_eq_getElem hm, hgm] at h1
  have him : i + m < c.keys.length := by
    rw [keys_length]
    omega
  rw [List.getElem?_eq_getElem him] at h1
  rw [List.getElem?_eq_getElem hn] at hx
  have hxx : c.keys[i + m] = c.keys[n] := by
    rw [← Option.some_inj.mp h1, Option.some_inj.mp hx]
  have := (hnd.getElem_inj_iff).mp hxx
  omega

/-- Merging two adjacent in-range slices of a duplicate-free chain yields the
spanning slice. -/
theorem merge_slice_adjacent (c : SectionProofChain) (i j k : Nat)
    (hnd : c.keys.Nodup) (hij : i ≤ j) (hjk : j ≤ k) (hk : k ≤ c.tail.length) :
    (c.slice (rangeII i j)).merge (c.slice (rangeII j k)) =
      .ok (c.slice (rangeII i k)) := by
  have hj : j ≤ c.tail.length := le_trans hjk hk
  have hi : i ≤ c.tail.length := le_trans hij hj
  have hklen : k < c.keys.length := by
    rw [keys_length]
    omega
  have hndA := nodup_keys_sliceII c i j hij hj hnd
  have hBf : c.keys[j]? = some (c.slice (rangeII j k)).first_key :=
    (first_key_sliceII c j k hjk hk).symm
  have hBl : c.keys[k]? = some (c.slice (rangeII j k)).last_key :=
    (last_key_sliceII c j k hjk hk).symm
  have hAatj : (c.slice (rangeII i j)).keys[j - i]? =
      some (c.slice (rangeII j k)).first_key := by
    rw [getElem?_keys_sliceII c i j (j - i) hij hj (le_refl _),
      show i + (j - i) = j by omega]
    exact hBf
  have hidx : (c.slice (rangeII i j)).index_of (c.slice (rangeII j k)).first_key =
      some (j - i) := by
    rw [index_of]
    exact findIdx?_beq_nodup _ hndA (j - i) _ hAatj
  have hdropA : (c.slice (rangeII i j)).keys.drop (j - i + 1) = [] := by
    apply List.drop_eq_nil_of_le
    rw [length_keys_sliceII c i j hij hj]
    omega
  rw [merge, hidx]
  dsimp only
  rw [hdropA]
  simp only [check_same_keys_nil_left, if_true]
  by_cases hkj : k = j
  · subst hkj
    have hhas : (c.slice (rangeII i k)).has_key
        (c.slice (rangeII k k)).last_key = true := by
      rw [has_key, List.any_eq_true]
      refine ⟨(c.slice (rangeII k k)).last_key, ?_, by simp⟩
      have : (c.slice (rangeII i k)).keys[k - i]? =
          some (c.slice (rangeII k k)).last_key := by
        rw [getElem?_keys_sliceII c i k (k - i) hij hk (le_refl _),
          show i + (k - i) = k by omega]
        exact hBl
      exact List.getElem?_mem this
    rw [hhas]
    simp
  · have hjk' : j < k := by omega
    have hhas : (c.slice (rangeII i j)).has_key
        (c.slice (rangeII j k)).last_key = false := by
      rw [has_key]
      rw [← Bool.not_eq_true, List.any_eq_true]
      intro ⟨x, hmem, hbeq⟩
      have hx : x = (c.slice (rangeII j k)).last_key := by simpa using hbeq
      subst hx
      exact not_mem_keys_sliceII c i j k hij hj hklen hnd (Or.inr hjk') _ hBl hmem
    rw [hhas]
    simp only [Bool.false_eq_true, if_false]
    rw [sliceII_mk c i j hij hj, sliceII_mk c j k hjk hk, sliceII_mk c i k
      (le_trans hij hjk) hk]
    congr 1
    have htA : ((c.tail.drop i).take (j - i)).take (j - i) =
        (c.tail.drop i).take (j - i) := by
      apply List.take_of_length_le
      simp only [List.length_take, List.length_drop]
      omega
    rw [htA]
    rw [show k - i = (j - i) + (k - j) by omega, List.take_add]
    congr 1
    rw [List.drop_drop, show i + (j - i) = j by omega]

/-- Merging the right-extended slice with the left complement of a
duplicate-free chain reconstructs the chain. -/
theorem merge_slice_left (c : SectionProofChain) (i : Nat)
    (hnd : c.keys.Nodup) (hi : i ≤ c.tail.length) :
    (c.slice (rangeII i c.tail.length)).merge (c.slice (rangeII 0 i)) = .ok c := by
  have h0len : 0 < c.keys.length := by
    rw [keys_length]
    omega
  have hLf : c.keys[0]? = some (c.slice (rangeII 0 i)).first_key :=
    (first_key_sliceII c 0 i (Nat.zero_le _) hi).symm
  have hLl : c.keys[i]? = some (c.slice (rangeII 0 i)).last_key :=
    (last_key_sliceII c 0 i (Nat.zero_le _) hi).symm
  have hAf : c.keys[i]? = some (c.slice (rangeII i c.tail.length)).first_key :=
    (first_key_sliceII c i c.tail.length hi (le_refl _)).symm
  have hAl : c.keys[c.tail.length]? =
      some (c.slice (rangeII i c.tail.length)).last_key :=
    (last_key_sliceII c i c.tail.length hi (le_refl _)).symm
  by_cases hi0 : i = 0
  · subst hi0
    rw [slice_full]
    have hidx : c.index_of (c.slice (rangeII 0 0)).first_key = some 0 := by
      rw [index_of]
      exact findIdx?_beq_nodup _ hnd 0 _ hLf
    rw [merge, hidx]
    dsimp only
    have hdropL : (c.slice (rangeII 0 0)).keys.drop 1 = [] := by
      apply List.drop_eq_nil_of_le
      rw [length_keys_sliceII c 0 0 (le_refl _) (Nat.zero_le _)]
    rw [hdropL]
    simp only [check_same_keys_nil_right, if_true]
    have hhas : c.has_key (c.slice (rangeII 0 0)).last_key = true := by
      rw [has_key, List.any_eq_true]
      exact ⟨_, List.getElem?_mem hLl, by simp⟩
    rw [hhas]
    simp
  · have hndA := nodup_keys_sliceII c i c.tail.length hi (le_refl _) hnd
    have hndL := nodup_keys_sliceII c 0 i (Nat.zero_le _) hi hnd
    have hidxA : (c.slice (rangeII i c.tail.length)).index_of
        (c.slice (rangeII 0 i)).first_key = none := by
      rw [index_of, List.findIdx?_eq_none_iff]
      intro x hmem
      simp only [beq_eq_false_iff_ne, ne_eq]
      intro he
      subst he
      exact not_mem_keys_sliceII c i c.tail.length 0 hi (le_refl _) h0len hnd
        (Or.inl (by omega)) _ hLf hmem
    have hidxL : (c.slice (rangeII 0 i)).index_of
        (c.slice (rangeII i c.tail.length)).first_key = some i := by
      rw [index_of]
      apply findIdx?_beq_nodup _ hndL i
      rw [getElem?_keys_sliceII c 0 i i (Nat.zero_le _) hi (by omega),
        Nat.zero_add]
      exact hAf
    rw [merge, hidxA]
    dsimp only
    rw [hidxL]
    dsimp only
    have hdropL : (c.slice (rangeII 0 i)).keys.drop (i + 1) = [] := by
      apply List.drop_eq_nil_of_le
      rw [length_keys_sliceII c 0 i (Nat.zero_le _) hi]
      omega
    rw [hdropL]
    simp only [check_same_keys_nil_right, if_true]
    by_cases hin : i = c.tail.length
    · subst hin
      have hK : (c.slice (rangeII 0 c.tail.length)).keys[c.tail.length]? =
          some (c.slice (rangeII c.tail.length c.tail.length)).last_key := by
        rw [getElem?_keys_sliceII c 0 c.tail.length c.tail.length (Nat.zero_le _)
          (le_refl _) (by omega), Nat.zero_add]
        exact hAl
      have hhas : (c.slice (rangeII 0 c.tail.length)).has_key
          (c.slice (rangeII c.tail.length c.tail.length)).last_key = true := by
        rw [has_key, List.any_eq_true]
        exact ⟨_, List.getElem?_mem hK, by simp⟩
      rw [hhas]
      simp only [if_true]
      rw [slice_full]
    · have hilt : i < c.tail.length := by omega
      have hhas : (c.slice (rangeII 0 i)).has_key
          (c.slice (rangeII i c.tail.length)).last_key = false := by
        rw [has_key]
        rw [← Bool.not_eq_true, List.any_eq_true]
        intro ⟨x, hmem, hbeq⟩
        have hx : x = (c.slice (rangeII i c.tail.length)).last_key := by
          simpa using hbeq
        subst hx
        exact not_mem_keys_sliceII c 0 i c.tail.length (Nat.zero_le _) hi
          (by rw [keys_length]; omega) hnd (Or.inr hilt) _ hAl hmem
      rw [hhas]
      simp only [Bool.false_eq_true, if_false]
      rw [sliceII_mk c 0 i (Nat.zero_le _) hi,
        sliceII_mk c i c.tail.length hi (le_refl _)]
      dsimp only
      simp only [Nat.sub_zero, List.drop_zero]
      have hhead0 : c.keys.getD 0 0 = c.head := rfl
      have h1 : (c.tail.take i).take i = c.tail.take i := by
        apply List.take_of_length_le
        simp only [List.length_take]
        omega
      have h2 : (c.tail.drop i).take (c.tail.length - i) = c.tail.drop i := by
        apply List.take_of_length_le
        simp only [List.length_drop]
        omega
      rw [hhead0, h1, h2, List.take_append_drop]

end SectionProofChain

/-- Claim C6 (amended): for a chain whose key sequence is duplicate-free,
merging `slice(i..=j)` with the complementary right slice `slice(j..=len-1)`
succeeds and reconstructs the corresponding slice `slice(i..=len-1)` of the
original, and further merging with the left complement `slice(0..=i)`
reconstructs the chain itself — so applied to a self-verifying chain the
reconstruction is the original and self-verifies.  Without the duplicate-free
hypothesis the claim fails (see the counterexample). -/
theorem claim_c6_slice_merge (c : SectionProofChain) (i j : Nat)
    (hnd : c.keys.Nodup) (hij : i ≤ j) (hj : j < c.len) :
    (c.slice (SectionProofChain.rangeII i j)).merge
        (c.slice (SectionProofChain.rangeII j (c.len - 1))) =
      .ok (c.slice (SectionProofChain.rangeII i (c.len - 1)))
    ∧ (c.slice (SectionProofChain.rangeII i (c.len - 1))).merge
        (c.slice (SectionProofChain.rangeII 0 i)) = .ok c := by
  have hlen : c.len - 1 = c.tail.length := by
    rw [SectionProofChain.len]
    omega
  have hjt : j ≤ c.tail.length := by
    rw [SectionProofChain.len] at hj
    omega
  constructor
  · rw [hlen]
    exact SectionProofChain.merge_slice_adjacent c i j c.tail.length hnd hij hjt
      (le_refl _)
  · rw [hlen]
    exact SectionProofChain.merge_slice_left c i hnd (le_trans hij hjt)

/-- Witness for claim C6: on the concrete self-verifying chain with keys
0, 1, 2 and `i = 1`, `j = 1`, both merges succeed and reconstruct the chain. -/
theorem claim_c6_slice_merge_witness :
    ((⟨0, [⟨1, (0, 1)⟩, ⟨2, (1, 2)⟩]⟩ : SectionProofChain).slice
        (SectionProofChain.rangeII 1 1)).merge
      ((⟨0, [⟨1, (0, 1)⟩, ⟨2, (1, 2)⟩]⟩ : SectionProofChain).slice
        (SectionProofChain.rangeII 1 2)) =
      .ok ((⟨0, [⟨1, (0, 1)⟩, ⟨2, (1, 2)⟩]⟩ : SectionProofChain).slice
        (SectionProofChain.rangeII 1 2))
    ∧ ((⟨0, [⟨1, (0, 1)⟩, ⟨2, (1, 2)⟩]⟩ : SectionProofChain).slice
        (SectionProofChain.rangeII 1 2)).merge
      ((⟨0, [⟨1, (0, 1)⟩, ⟨2, (1, 2)⟩]⟩ : SectionProofChain).slice
        (SectionProofChain.rangeII 0 1)) =
      .ok ⟨0, [⟨1, (0, 1)⟩, ⟨2, (1, 2)⟩]⟩ :=
  claim_c6_slice_merge ⟨0, [⟨1, (0, 1)⟩, ⟨2, (1, 2)⟩]⟩ 1 1 (by decide) (by decide)
    (by decide)

/-- Counterexample to claim C6 as stated: the self-verifying chain with key
sequence 0, 1, 0, 2 (keys may repeat across epochs in an arbitrary received
chain) at `i = 0`, `j = 2`: merging `slice(0..=2)` with the complementary
`slice(2..=3)` fails with `MergeError` instead of succeeding, because the
first key of the complement is found at the wrong (earlier) occurrence. -/
theorem claim_c6_counterexample :
    ((⟨0, [⟨1, (0, 1)⟩, ⟨0, (1, 0)⟩, ⟨2, (0, 2)⟩]⟩ : SectionProofChain).slice
        (SectionProofChain.rangeII 0 2)).merge
      ((⟨0, [⟨1, (0, 1)⟩, ⟨0, (1, 0)⟩, ⟨2, (0, 2)⟩]⟩ : SectionProofChain).slice
        (SectionProofChain.rangeII 2 3)) =
      .error SectionProofChain.MergeError.mk
    ∧ SectionProofChain.self_verify blsVerify
        ⟨0, [⟨1, (0, 1)⟩, ⟨0, (1, 0)⟩, ⟨2, (0, 2)⟩]⟩ = true := by
  exact ⟨rfl, by decide⟩

/-- Witness for claim C10: two concrete chains equal in keys but with one
corrupted signature merge to the same key sequence. -/
theorem claim_c10_merge_ignores_signatures_witness :
    ((⟨0, [⟨1, (0, 1)⟩]⟩ : SectionProofChain).merge
        (SectionProofChain.new 1)).map SectionProofChain.keys =
      ((⟨0, [⟨1, (5, 5)⟩]⟩ : SectionProofChain).merge
        (SectionProofChain.new 1)).map SectionProofChain.keys :=
  claim_c10_merge_ignores_signatures.1 ⟨0, [⟨1, (0, 1)⟩]⟩ (SectionProofChain.new 1)
    ⟨0, [⟨1, (5, 5)⟩]⟩ (SectionProofChain.new 1) rfl rfl

/-!
Claim C3: the `PrefixMap` redundancy invariant.  Coverage lemmas first.
-/

theorem coveredImpl_nil : ∀ (fuel : Nat) (p : Pfx), coveredImpl [] fuel p = false
  | 0, _ => rfl
  | fuel + 1, p => by
      simp only [coveredImpl, List.any_nil, Bool.false_or]
      rw [coveredImpl_nil fuel, coveredImpl_nil fuel]
      rfl

theorem is_covered_by_nil (p : Pfx) : Pfx.is_covered_by p [] = false :=
  coveredImpl_nil _ _

theorem le_maxLenS (S : List Pfx) (x : Pfx) (hx : x ∈ S) : x.length ≤ maxLenS S := by
  induction S with
  | nil => cases hx
  | cons a S ih =>
      simp only [maxLenS, List.foldr_cons]
      rcases List.mem_cons.mp hx with rfl | hx2
      · exact Nat.le_max_left _ _
      · exact le_trans (ih hx2) (Nat.le_max_right _ _)

theorem maxLenS_le (S : List Pfx) (n : Nat) (h : ∀ x ∈ S, x.length ≤ n) :
    maxLenS S ≤ n := by
  induction S with
  | nil => exact Nat.zero_le n
  | cons a S ih =>
      simp only [maxLenS, List.foldr_cons]
      exact Nat.max_le.mpr ⟨h a (List.mem_cons_self a S),
        ih (fun x hx => h x (List.mem_cons_of_mem a hx))⟩

theorem coveredImpl_mono (S S' : List Pfx) (hS : ∀ x ∈ S, x ∈ S') :
    ∀ (fuel' fuel : Nat) (p : Pfx), fuel ≤ fuel' →
      coveredImpl S fuel p = true → coveredImpl S' fuel' p = true := by
  intro fuel'
  induction fuel' with
  | zero =>
      intro fuel p hf h
      obtain rfl : fuel = 0 := by omega
      simp only [coveredImpl, List.any_eq_true] at h ⊢
      obtain ⟨x, hx, hpx⟩ := h
      exact ⟨x, hS x hx, hpx⟩
  | succ g' ih =>
      intro fuel p hf h
      have hany : S.any (fun x => x.isPrefixOf p) = true →
          coveredImpl S' (g' + 1) p = true := by
        intro ha
        rw [List.any_eq_true] at ha
        obtain ⟨x, hx, hpx⟩ := ha
        simp only [coveredImpl, Bool.or_eq_true, List.any_eq_true]
        exact Or.inl ⟨x, hS x hx, hpx⟩
      cases fuel with
      | zero => exact hany h
      | succ g =>
          simp only [coveredImpl, Bool.or_eq_true, Bool.and_eq_true] at h
          rcases h with h | h
          · exact hany h
          · simp only [coveredImpl, Bool.or_eq_true, Bool.and_eq_true]
            exact Or.inr ⟨ih g (p ++ [false]) (by omega) h.1,
              ih g (p ++ [true]) (by omega) h.2⟩

theorem is_covered_by_mono (p : Pfx) (S S' : List Pfx) (hS : ∀ x ∈ S, x ∈ S')
    (h : Pfx.is_covered_by p S = true) : Pfx.is_covered_by p S' = true := by
  rw [Pfx.is_covered_by] at h ⊢
  refine coveredImpl_mono S S' hS _ _ p ?_ h
  have := maxLenS_le S (maxLenS S') (fun x hx => le_maxLenS S' x (hS x hx))
  omega

theorem coveredImpl_of_any (S : List Pfx) (p : Pfx)
    (h : S.any (fun x => x.isPrefixOf p) = true) :
    ∀ fuel, coveredImpl S fuel p = true := by
  intro fuel
  cases fuel with
  | zero => exact h
  | succ g =>
      simp only [coveredImpl, Bool.or_eq_true]
      exact Or.inl h

theorem covered_of_both_children (P : Pfx) (S : List Pfx)
    (h0 : P ++ [false] ∈ S) (h1 : P ++ [true] ∈ S) :
    Pfx.is_covered_by P S = true := by
  have hlen : P.length + 1 ≤ maxLenS S := by
    have := le_maxLenS S (P ++ [false]) h0
    simpa using this
  obtain ⟨g, hg⟩ : ∃ g, maxLenS S - P.length = g + 1 :=
    ⟨maxLenS S - P.length - 1, by omega⟩
  rw [Pfx.is_covered_by, hg]
  simp only [coveredImpl, Bool.or_eq_true, Bool.and_eq_true]
  refine Or.inr ⟨?_, ?_⟩
  · refine coveredImpl_of_any S (P ++ [false]) ?_ g
    rw [List.any_eq_true]
    exact ⟨P ++ [false], h0, by simp [List.isPrefixOf_iff_prefix]⟩
  · refine coveredImpl_of_any S (P ++ [true]) ?_ g
    rw [List.any_eq_true]
    exact ⟨P ++ [true], h1, by simp [List.isPrefixOf_iff_prefix]⟩

/-- A strict prefix of `p` is still a prefix after dropping `p`'s last bit. -/
theorem prefix_dropLast (q p : Pfx) (h : q <+: p) (hne : q ≠ p) :
    q <+: p.dropLast := by
  have hq : q = p.take q.length := List.prefix_iff_eq_take.mp h
  have hlt : q.length < p.length := by
    rcases Nat.lt_or_ge q.length p.length with h1 | h1
    · exact h1
    · exfalso
      apply hne
      have hle : q.length ≤ p.length := h.length_le
      have heq : q.length = p.length := le_antisymm hle h1
      rw [hq, heq, List.take_length]
  rw [List.prefix_iff_eq_take, List.dropLast_eq_take, List.take_take,
    Nat.min_eq_left (by omega)]
  exact hq

namespace PrefixMap

theorem mem_removeAt {T : Type} (pfx : T → Pfx) (m : PrefixMap T) (p : Pfx)
    (e : T) (h : e ∈ (m.removeAt pfx p).entries) : e ∈ m.entries ∧ pfx e ≠ p := by
  rw [removeAt] at h
  simp only [List.mem_filter, decide_eq_true_eq] at h
  exact h

theorem descPrefixes_mono {T : Type} (pfx : T → Pfx) (m' m : PrefixMap T)
    (hsub : ∀ e ∈ m'.entries, e ∈ m.entries) (q : Pfx) :
    ∀ x ∈ m'.descPrefixes pfx q, x ∈ m.descPrefixes pfx q := by
  intro x hx
  rw [descPrefixes, List.mem_map] at hx ⊢
  obtain ⟨z, hz, rfl⟩ := hx
  rw [descendants, List.mem_filter] at hz
  refine ⟨z, ?_, rfl⟩
  rw [descendants, List.mem_filter]
  exact ⟨hsub z hz.1, hz.2⟩

theorem OKat_anti {T : Type} (pfx : T → Pfx) (m' m : PrefixMap T) (q : Pfx)
    (hsub : ∀ x ∈ m'.descPrefixes pfx q, x ∈ m.descPrefixes pfx q)
    (h : m.OKat pfx q) : m'.OKat pfx q := by
  intro hc
  exact h (is_covered_by_mono q _ _ hsub hc)

/-- The `prune` walk only deletes entries. -/
theorem pruneRev_subset {T : Type} (pfx : T → Pfx) :
    ∀ (r : List Bool) (m : PrefixMap T) (e : T),
      e ∈ (pruneRev pfx m r).entries → e ∈ m.entries := by
  intro r
  induction r with
  | nil =>
      intro m e h
      rw [pruneRev] at h
      by_cases hc : Pfx.is_covered_by [] (m.descPrefixes pfx []) = true
      · rw [if_pos hc] at h
        exact (mem_removeAt pfx m [] e h).1
      · rwa [if_neg hc] at h
  | cons b r ih =>
      intro m e h
      rw [pruneRev] at h
      by_cases hc : Pfx.is_covered_by ((b :: r).reverse)
          (m.descPrefixes pfx ((b :: r).reverse)) = true
      · rw [if_pos hc] at h
        exact (mem_removeAt pfx m _ e (ih _ e h)).1
      · rw [if_neg hc] at h
        exact ih _ e h

/-- The main induction over the `prune` walk: if every entry whose prefix is
not a weak ancestor of the walk's current position already satisfies its
invariant clause, then after the walk every entry does. -/
theorem pruneRev_inv {T : Type} (pfx : T → Pfx) :
    ∀ (r : List Bool) (m : PrefixMap T),
      (∀ e ∈ m.entries, ¬ (pfx e <+: r.reverse) → m.OKat pfx (pfx e)) →
      Inv pfx (pruneRev pfx m r) := by
  intro r
  induction r with
  | nil =>
      intro m hm e he
      rw [pruneRev] at he ⊢
      by_cases hc : Pfx.is_covered_by [] (m.descPrefixes pfx []) = true
      · rw [if_pos hc] at he ⊢
        obtain ⟨hem, hne⟩ := mem_removeAt pfx m [] e he
        have hnp : ¬ (pfx e <+: ([] : List Bool).reverse) := by
          simp only [List.reverse_nil]
          rw [List.prefix_nil]
          exact hne
        exact OKat_anti pfx _ m (pfx e)
          (descPrefixes_mono pfx _ m (fun z hz => (mem_removeAt pfx m [] z hz).1) _)
          (hm e hem hnp)
      · rw [if_neg hc] at he ⊢
        by_cases hpe : pfx e = []
        · rw [hpe]
          exact hc
        · refine hm e he ?_
          simp only [List.reverse_nil]
          rw [List.prefix_nil]
          exact hpe
  | cons b r ih =>
      intro m hm
      rw [pruneRev]
      apply ih
      intro e he hnp
      by_cases hc : Pfx.is_covered_by ((b :: r).reverse)
          (m.descPrefixes pfx ((b :: r).reverse)) = true
      · rw [if_pos hc] at he ⊢
        obtain ⟨hem, hne⟩ := mem_removeAt pfx m _ e he
        have hnpfull : ¬ (pfx e <+: (b :: r).reverse) := by
          intro hp
          rcases eq_or_ne (pfx e) ((b :: r).reverse) with heq | hneq
          · exact hne heq
          · apply hnp
            have hd := prefix_dropLast (pfx e) ((b :: r).reverse) hp hneq
            rwa [List.reverse_cons, List.dropLast_concat] at hd
        exact OKat_anti pfx _ m (pfx e)
          (descPrefixes_mono pfx _ m (fun z hz => (mem_removeAt pfx m _ z hz).1) _)
          (hm e hem hnpfull)
      · rw [if_neg hc] at he ⊢
        by_cases hpe : pfx e = (b :: r).reverse
        · rw [hpe]
          exact hc
        · refine hm e he ?_
          intro hp
          apply hnp
          have hd := prefix_dropLast (pfx e) ((b :: r).reverse) hp hpe
          rwa [List.reverse_cons, List.dropLast_concat] at hd

/-- `insert` preserves the redundancy invariant. -/
theorem insert_inv {T : Type} (pfx : T → Pfx) (m : PrefixMap T) (e : T)
    (hm : Inv pfx m) : Inv pfx (m.insert pfx e).1 := by
  rw [insert]
  by_cases hd : (m.descendants pfx (pfx e)).isEmpty = true
  · rw [if_pos hd]
    dsimp only
    rw [prune]
    apply pruneRev_inv
    intro x hx hnp
    rw [List.reverse_reverse] at hnp
    simp only [Pfx.popped] at hnp
    have hdm : m.descendants pfx (pfx e) = [] := by
      rwa [List.isEmpty_iff] at hd
    rcases List.mem_cons.mp hx with rfl | hx2
    · intro hcov
      have hdesc : descPrefixes pfx
          ⟨x :: m.entries.filter (fun y => decide (pfx y ≠ pfx x))⟩ (pfx x) = [] := by
        rw [descPrefixes, descendants]
        rw [List.filter_cons_of_neg]
        · rw [List.filter_filter]
          have hnil : m.entries.filter (fun y =>
              Pfx.is_extension_of (pfx y) (pfx x) && decide (pfx y ≠ pfx x)) = [] := by
            rw [List.filter_eq_nil_iff]
            intro a ha hpa
            rw [Bool.and_eq_true] at hpa
            have : a ∈ m.descendants pfx (pfx x) := by
              rw [descendants, List.mem_filter]
              exact ⟨ha, hpa.1⟩
            rw [hdm] at this
            cases this
          rw [hnil]
          rfl
        · simp [Pfx.is_extension_of]
      rw [hdesc, is_covered_by_nil] at hcov
      exact Bool.noConfusion hcov
    · rw [List.mem_filter, decide_eq_true_eq] at hx2
      refine OKat_anti pfx _ m (pfx x) ?_ (hm x hx2.1)
      intro z hz
      rw [descPrefixes, List.mem_map] at hz
      obtain ⟨w, hw, rfl⟩ := hz
      rw [descendants, List.mem_filter] at hw
      rcases List.mem_cons.mp hw.1 with rfl | hw2
      · exfalso
        have hext := hw.2
        rw [Pfx.is_extension_of, Bool.and_eq_true, decide_eq_true_eq,
          List.isPrefixOf_iff_prefix] at hext
        apply hnp
        exact prefix_dropLast (pfx x) (pfx w) hext.1 (by
          intro heq
          rw [heq] at hext
          omega)
      · rw [List.mem_filter] at hw2
        rw [descPrefixes, List.mem_map]
        refine ⟨w, ?_, rfl⟩
        rw [descendants, List.mem_filter]
        exact ⟨hw2.1, hw.2⟩
  · rw [if_neg hd]
    exact hm

/-- `remove` preserves the redundancy invariant. -/
theorem remove_inv {T : Type} (pfx : T → Pfx) (m : PrefixMap T) (p : Pfx)
    (hm : Inv pfx m) : Inv pfx (m.remove pfx p).1 := by
  intro x hx
  rw [remove] at hx ⊢
  dsimp only at hx ⊢
  obtain ⟨hxm, _⟩ := mem_removeAt pfx m p x hx
  exact OKat_anti pfx _ m (pfx x)
    (descPrefixes_mono pfx _ m (fun z hz => (mem_removeAt pfx m p z hz).1) _)
    (hm x hxm)

/-- The invariant forbids a stored parent once both children are stored. -/
theorem inv_not_parent {T : Type} (pfx : T → Pfx) (m : PrefixMap T)
    (hm : Inv pfx m) (P : Pfx)
    (h0 : ∃ e ∈ m.entries, pfx e = P ++ [false])
    (h1 : ∃ e ∈ m.entries, pfx e = P ++ [true]) :
    ¬ ∃ e ∈ m.entries, pfx e = P := by
  rintro ⟨e, he, rfl⟩
  obtain ⟨e0, he0, hp0⟩ := h0
  obtain ⟨e1, he1, hp1⟩ := h1
  apply hm e he
  apply covered_of_both_children
  · rw [descPrefixes, List.mem_map]
    refine ⟨e0, ?_, hp0⟩
    rw [descendants, List.mem_filter]
    refine ⟨he0, ?_⟩
    rw [hp0]
    simp [Pfx.is_extension_of, List.isPrefixOf_iff_prefix]
  · rw [descPrefixes, List.mem_map]
    refine ⟨e1, ?_, hp1⟩
    rw [descendants, List.mem_filter]
    refine ⟨he1, ?_⟩
    rw [hp1]
    simp [Pfx.is_extension_of, List.isPrefixOf_iff_prefix]

end PrefixMap

/-- Claim C3: for every `PrefixMap` built by any sequence of `insert` and
`remove` operations from the empty map, no stored prefix is entirely covered
by the prefixes of the other stored entries that are its strict extensions;
in particular, whenever both one-bit children of a prefix `P` are stored, no
entry at `P` itself is stored. -/
theorem claim_c3_prefix_map (T : Type) (pfx : T → Pfx) (m : PrefixMap T)
    (hr : PrefixMap.Reachable pfx m) :
    PrefixMap.Inv pfx m
    ∧ ∀ P : Pfx, (∃ e ∈ m.entries, pfx e = P ++ [false]) →
        (∃ e ∈ m.entries, pfx e = P ++ [true]) →
        ¬ ∃ e ∈ m.entries, pfx e = P := by
  have hinv : PrefixMap.Inv pfx m := by
    induction hr with
    | empty =>
        intro e he
        cases he
    | ins m' e _ ih => exact PrefixMap.insert_inv pfx m' e ih
    | rem m' p _ ih => exact PrefixMap.remove_inv pfx m' p ih
  exact ⟨hinv, fun P h0 h1 => PrefixMap.inv_not_parent pfx m hinv P h0 h1⟩

/-- Witness for claim C3: the invariant holds for the concrete map obtained by
inserting the prefixes 0 and 1 into the empty map. -/
theorem claim_c3_prefix_map_witness :
    PrefixMap.Inv (fun p : Pfx => p)
      ((((⟨[]⟩ : PrefixMap Pfx).insert (fun p : Pfx => p) [false]).1).insert
        (fun p : Pfx => p) [true]).1 :=
  (claim_c3_prefix_map Pfx (fun p : Pfx => p) _
    (PrefixMap.Reachable.ins _ [true]
      (PrefixMap.Reachable.ins _ [false] PrefixMap.Reachable.empty))).1

end SnMessaging
